import Mathlib

/-!
Form validation of `script.js`.

A shallow embedding of the validation part of `src/script.js` (PART 3: FORM VALIDATION):
the six validator functions, `updateFieldValidation`, `validateField`, `validateForm`
and the real-time `input`/`blur` listeners.

* A JavaScript string is the list of its UTF-16 code units (`JSString`).
* A regular expression literal is a value of `Regex`; `Regex.test` is a backtracking
  matcher that tries every start index, as `RegExp.prototype.test` does for a regex
  without flags.
* The part of the DOM that the validation code touches is the record `Page`.
-/

namespace FormValidation

/-! ## Strings and character classes -/

/-- A JavaScript string, as the list of its UTF-16 code units. -/
abbrev JSString := List Nat

/-- UTF-16 code units of one Unicode scalar value. -/
def utf16Char (c : Char) : List Nat :=
  if c.toNat < 65536 then [c.toNat]
  else [55296 + (c.toNat - 65536) / 1024, 56320 + (c.toNat - 65536) % 1024]

/-- The JavaScript string written by a source literal. -/
def js (s : String) : JSString := s.toList.flatMap utf16Char

/-- Class `[a-z]`. -/
def isLower (c : Nat) : Bool := decide (97 ≤ c) && decide (c ≤ 122)

/-- Class `[A-Z]`. -/
def isUpper (c : Nat) : Bool := decide (65 ≤ c) && decide (c ≤ 90)

/-- Class `\d`, that is `[0-9]`. -/
def isDigit (c : Nat) : Bool := decide (48 ≤ c) && decide (c ≤ 57)

/-- ECMAScript LineTerminator: LF, CR, U+2028, U+2029. -/
def isLineTerminator (c : Nat) : Bool :=
  c == 10 || c == 13 || c == 8232 || c == 8233

/-- Class `\s`: ECMAScript WhiteSpace (TAB, VT, FF, SP, NBSP, ZWNBSP and the Unicode
space separators) together with the line terminators. `String.prototype.trim` strips
exactly the same code units. -/
def isWhiteSpace (c : Nat) : Bool :=
  c == 9 || c == 11 || c == 12 || c == 32 || c == 160 || c == 5760 ||
  (decide (8192 ≤ c) && decide (c ≤ 8202)) || c == 8239 || c == 8287 || c == 12288 ||
  c == 65279 || isLineTerminator c

/-- The atom `.` of a regex without the `s` flag: any code unit but a line terminator. -/
def isDot (c : Nat) : Bool := !isLineTerminator c

/-- Result of `String.prototype.trim`: whitespace and line terminators are removed from
both ends. -/
def trim (s : JSString) : JSString :=
  ((s.dropWhile isWhiteSpace).reverse.dropWhile isWhiteSpace).reverse

/-! ## Regular expressions -/

/-- The fragment of ECMAScript regular expressions used by the validators. Quantifiers
are applied to single character classes only, which is all the source does. -/
inductive Regex where
  /-- Assertion `^` (no `m` flag): start of input. -/
  | bol : Regex
  /-- Assertion `$` (no `m` flag): end of input. -/
  | eol : Regex
  /-- One code unit of a class: a literal, `.`, `\d` or a bracket expression. -/
  | cls (p : Nat → Bool) : Regex
  /-- Class under a quantifier: `?` is `{0,1}`, `*` is `{0,}`, `+` is `{1,}`. -/
  | rep (p : Nat → Bool) (lo : Nat) (hi : Option Nat) : Regex
  /-- Concatenation. -/
  | seq (a b : Regex) : Regex
  /-- Disjunction `a|b`. -/
  | alt (a b : Regex) : Regex
  /-- Positive lookahead `(?=a)`. -/
  | look (a : Regex) : Regex

/-- Backtracking over a quantified class: take one more code unit if the upper bound
allows it, or stop once the lower bound is reached. -/
def repGo (p : Nat → Bool) (k : Nat → JSString → Bool) :
    Nat → Option Nat → Nat → JSString → Bool
  | lo, _, pos, [] => lo == 0 && k pos []
  | lo, hi, pos, c :: t =>
    (hi != some 0 && p c && repGo p k (lo - 1) (hi.map (· - 1)) (pos + 1) t) ||
    (lo == 0 && k pos (c :: t))

/-- Continuation-passing matcher: `r.run pos rest k` holds when `r` matches a prefix of
`rest`, the input from index `pos` on, in such a way that the continuation `k` accepts
the index and input after it. -/
def Regex.run : Regex → Nat → JSString → (Nat → JSString → Bool) → Bool
  | .bol, pos, rest, k => pos == 0 && k pos rest
  | .eol, pos, rest, k => rest.isEmpty && k pos rest
  | .cls _, _, [], _ => false
  | .cls p, pos, c :: t, k => p c && k (pos + 1) t
  | .rep p lo hi, pos, rest, k => repGo p k lo hi pos rest
  | .seq a b, pos, rest, k => a.run pos rest (fun pos1 rest1 => b.run pos1 rest1 k)
  | .alt a b, pos, rest, k => a.run pos rest k || b.run pos rest k
  | .look a, pos, rest, k => a.run pos rest (fun _ _ => true) && k pos rest

/-- Search for a match starting at index `pos` or later. -/
def testFrom (r : Regex) : Nat → JSString → Bool
  | pos, [] => r.run pos [] (fun _ _ => true)
  | pos, c :: t => r.run pos (c :: t) (fun _ _ => true) || testFrom r (pos + 1) t

/-- Model of `RegExp.prototype.test` for a regex without the `g` or `y` flag. -/
def Regex.test (r : Regex) (s : JSString) : Bool := testFrom r 0 s

/-! ## The validators -/

/-- The literal `/^(?=.*[a-z])(?=.*[A-Z])(?=.*\d).{8,}$/`. -/
def passwordRegex : Regex :=
  .seq .bol
    (.seq (.look (.seq (.rep isDot 0 none) (.cls isLower)))
      (.seq (.look (.seq (.rep isDot 0 none) (.cls isUpper)))
        (.seq (.look (.seq (.rep isDot 0 none) (.cls isDigit)))
          (.seq (.rep isDot 8 none) .eol))))

/-- Function `validatePassword(password)`. -/
def validatePassword (password : JSString) : Bool :=
  passwordRegex.test password

/-- The literal `/^[a-zA-Z\s]{2,}$/`. -/
def nameRegex : Regex :=
  .seq .bol (.seq (.rep (fun c => isLower c || isUpper c || isWhiteSpace c) 2 none) .eol)

/-- Function `validateName(name)`. -/
def validateName (name : JSString) : Bool :=
  nameRegex.test (trim name)

/-- Class `[^\s@]`. -/
def isEmailChar (c : Nat) : Bool := !(isWhiteSpace c || c == 64)

/-- The literal `/^[^\s@]+@[^\s@]+\.[^\s@]+$/`. -/
def emailRegex : Regex :=
  .seq .bol
    (.seq (.rep isEmailChar 1 none)
      (.seq (.cls (· == 64))
        (.seq (.rep isEmailChar 1 none)
          (.seq (.cls (· == 46))
            (.seq (.rep isEmailChar 1 none) .eol)))))

/-- Function `validateEmail(email)`. -/
def validateEmail (email : JSString) : Bool :=
  emailRegex.test (trim email)

/-- Function `validateConfirmPassword(confirmPassword, password)`: strict equality of
two strings is equality of their code unit sequences. -/
def validateConfirmPassword (confirmPassword password : JSString) : Bool :=
  decide (confirmPassword = password) && decide (confirmPassword ≠ [])

/-- Class `[\d\s\-\(\)]`. -/
def isPhoneBody (c : Nat) : Bool :=
  isDigit c || isWhiteSpace c || c == 45 || c == 40 || c == 41

/-- The literal `/^[\+]?[1-9][\d]{0,15}$|^[\+]?[(]?[\d\s\-\(\)]{10,}$/`. -/
def phoneRegex : Regex :=
  .alt
    (.seq .bol
      (.seq (.rep (· == 43) 0 (some 1))
        (.seq (.cls (fun c => decide (49 ≤ c) && decide (c ≤ 57)))
          (.seq (.rep isDigit 0 (some 15)) .eol))))
    (.seq .bol
      (.seq (.rep (· == 43) 0 (some 1))
        (.seq (.rep (· == 40) 0 (some 1))
          (.seq (.rep isPhoneBody 10 none) .eol))))

/-- Result of `phone.replace(/\s/g, '')`: every whitespace code unit is removed. -/
def removeWhiteSpace (s : JSString) : JSString :=
  s.filter (fun c => !isWhiteSpace c)

/-- Function `validatePhone(phone)`. -/
def validatePhone (phone : JSString) : Bool :=
  phoneRegex.test (removeWhiteSpace phone)

/-- Value of a code unit as a digit of a radix up to 36, if it is one. -/
def digitValue (c : Nat) : Option Nat :=
  if isDigit c then some (c - 48)
  else if isLower c then some (c - 97 + 10)
  else if isUpper c then some (c - 65 + 10)
  else none

/-- Whether a code unit is a digit of radix `R`. -/
def isRadixDigit (R : Nat) (c : Nat) : Bool :=
  match digitValue c with
  | some d => decide (d < R)
  | none => false

/-- Mathematical value of a digit string in radix `R`. -/
def radixValue (R : Nat) (Z : JSString) : Nat :=
  Z.foldl (fun acc c => acc * R + (digitValue c).getD 0) 0

/-- Steps 2 to 4 of `parseInt`: leading whitespace is skipped and one sign, `+` or `-`,
is removed. -/
def afterSign (string : JSString) : JSString :=
  let S := string.dropWhile isWhiteSpace
  if S.head? = some 43 ∨ S.head? = some 45 then S.tail else S

/-- Step 8 of `parseInt` without a radix argument: a prefix `0x` or `0X` is removed and
selects radix 16, otherwise the radix is 10. -/
def radixAndRest (S : JSString) : Nat × JSString :=
  match S with
  | 48 :: 120 :: t => (16, t)
  | 48 :: 88 :: t => (16, t)
  | _ => (10, S)

/-- Built-in `parseInt(string)` called without a radix, following ECMA-262: leading
whitespace is skipped, one sign is read, a `0x`/`0X` prefix selects radix 16, and the
longest prefix of digits is the numeral; `none` is `NaN`. The result is the exact
integer `sign * value`: the Number that JavaScript returns is this integer rounded to a
double, and since rounding is monotone and exact on small integers, comparing it with
13 and with 120 gives the same answers as comparing the exact integer. -/
def parseInt (string : JSString) : Option Int :=
  let sign : Int := if (string.dropWhile isWhiteSpace).head? = some 45 then -1 else 1
  let RS := radixAndRest (afterSign string)
  let Z := RS.2.takeWhile (isRadixDigit RS.1)
  if Z = [] then none else some (sign * (radixValue RS.1 Z : Int))

/-- Function `validateAge(age)`; `!isNaN(ageNum)` is the `some` case. -/
def validateAge (age : JSString) : Bool :=
  match parseInt age with
  | none => false
  | some ageNum => decide (13 ≤ ageNum) && decide (ageNum ≤ 120)

/-- The phone case of `validateField`: `field.value === '' || validatePhone(field.value)`. -/
def phoneFieldCheck (value : JSString) : Bool :=
  decide (value = []) || validatePhone value

/-- The age case of `validateField`: `field.value === '' || validateAge(field.value)`. -/
def ageFieldCheck (value : JSString) : Bool :=
  decide (value = []) || validateAge value

/-- Decimal numeral of a natural number, most significant digit first. -/
def decimal (n : Nat) : JSString :=
  if n = 0 then [48] else ((Nat.digits 10 n).reverse).map (· + 48)

/-- Decimal numeral of an integer: a minus sign in front of a negative one. -/
def numeral : Int → JSString
  | Int.ofNat n => decimal n
  | Int.negSucc n => 45 :: decimal (n + 1)

/-- The number that the digit string `Z` writes in radix `R`, most significant digit
first (`Nat.ofDigits` takes the least significant digit first). -/
def numeralValue (R : Nat) (Z : JSString) : Nat :=
  Nat.ofDigits R ((Z.map (fun c => (digitValue c).getD 0)).reverse)

/-- Whether a string is entirely a decimal integer numeral: digits only, after an
optional minus sign. -/
def isDecimalNumeral (v : JSString) : Bool :=
  match v with
  | 45 :: ds => !ds.isEmpty && ds.all isDigit
  | ds => !ds.isEmpty && ds.all isDigit

/-! ## The form and its fields -/

/-- An `input` element of the form, as far as the validation code reads and writes it. -/
structure Input where
  /-- Attribute `id`. -/
  id : String
  /-- Property `name`. -/
  name : String
  /-- Property `value`. -/
  value : JSString
  /-- Property `checked`. -/
  checked : Bool
  /-- Whether `classList` contains `'valid'`. -/
  hasValid : Bool
  /-- Whether `classList` contains `'invalid'`. -/
  hasInvalid : Bool
deriving DecidableEq, Repr

/-- The document as the validation code sees it. The elements that show error text are
not inputs: `getElementById(field.name + 'Error')` is answered by `errorText` and
`getElementById('password')` by the inputs. -/
structure Page where
  /-- Result of `form.querySelectorAll('input')`, in document order. -/
  inputs : List Input
  /-- Property `textContent` of the element with the given id; `none` when the document
  has no such element. -/
  errorText : String → Option String

/-- Call `document.getElementById(id)` for an input; `none` is `null`. -/
def getInputById (page : Page) (id : String) : Option Input :=
  page.inputs.find? (fun inp => inp.id == id)

/-- Expression `document.getElementById('password').value`; `none` is the TypeError of
reading `.value` of `null` when the document has no element with id `password`. -/
def passwordValue (page : Page) : Option JSString :=
  (getInputById page "password").map (fun inp => inp.value)

/-- Assignment `errorElement.textContent = text`, where `errorElement` is the element
with id `id`; `none` is the TypeError thrown when that element is `null`. -/
def setErrorText (page : Page) (id : String) (text : String) : Option Page :=
  match page.errorText id with
  | none => none
  | some _ =>
    some { page with errorText := fun j => if j = id then some text else page.errorText j }

/-- Function `updateFieldValidation(field, isValid, errorMessage, errorElement)`; the
field is the input at index `i` and `errorId` is the id of `errorElement`. -/
def updateFieldValidation (page : Page) (i : Nat) (field : Input) (isValid : Bool)
    (errorMessage : String) (errorId : String) : Option Page :=
  if trim field.value = [] ∧ field.name ≠ "terms" then
    setErrorText
      { page with inputs := page.inputs.set i { field with hasValid := false, hasInvalid := false } }
      errorId ""
  else
    setErrorText
      { page with inputs := page.inputs.set i { field with hasValid := isValid, hasInvalid := !isValid } }
      errorId errorMessage

/-- The `switch (field.name)` of `validateField`: the pair `(isValid, errorMessage)`
at the end of the switch; `none` when the case `confirmPassword` throws. -/
def fieldVerdict (page : Page) (field : Input) : Option (Bool × String) :=
  if field.name = "fullName" then
    let isValid := validateName field.value
    some (isValid, if isValid then "" else "Please enter a valid full name (min 2 characters)")
  else if field.name = "email" then
    let isValid := validateEmail field.value
    some (isValid, if isValid then "" else "Please enter a valid email address")
  else if field.name = "password" then
    let isValid := validatePassword field.value
    some (isValid, if isValid then ""
      else "Password must be at least 8 characters with uppercase, lowercase, and number")
  else if field.name = "confirmPassword" then
    match passwordValue page with
    | none => none
    | some password =>
      let isValid := validateConfirmPassword field.value password
      some (isValid, if isValid then "" else "Passwords do not match")
  else if field.name = "phone" then
    let isValid := phoneFieldCheck field.value
    some (isValid, if isValid then "" else "Please enter a valid phone number")
  else if field.name = "age" then
    let isValid := ageFieldCheck field.value
    some (isValid, if isValid then "" else "Please enter a valid age (13-120)")
  else if field.name = "terms" then
    let isValid := field.checked
    some (isValid, if isValid then "" else "You must agree to the terms and conditions")
  else
    some (true, "")

/-- Function `validateField(field)` for the input at index `i`: the page after the call
and the returned `isValid`; `none` when the call throws. -/
def validateField (page : Page) (i : Nat) : Option (Page × Bool) :=
  match page.inputs[i]? with
  | none => none
  | some field =>
    match fieldVerdict page field with
    | none => none
    | some (isValid, errorMessage) =>
      match updateFieldValidation page i field isValid errorMessage (field.name ++ "Error") with
      | none => none
      | some page1 => some (page1, isValid)

/-- The body of `fields.forEach(...)` in `validateForm`, run over the inputs with the
given indices, threading the page and the variable `isFormValid`. -/
def validateFields : List Nat → Page → Bool → Option (Page × Bool)
  | [], page, isFormValid => some (page, isFormValid)
  | i :: rest, page, isFormValid =>
    match validateField page i with
    | none => none
    | some (page1, isValid) =>
      validateFields rest page1 (if !isValid then false else isFormValid)

/-- Function `validateForm()`. -/
def validateForm (page : Page) : Option (Page × Bool) :=
  validateFields (List.range page.inputs.length) page true

/-- An `input` or `blur` event on the input at index `target`: the user has left the
field with the given value and checked state (for `blur` the ones it already had). -/
structure FieldEvent where
  /-- Index of the input the event is dispatched to. -/
  target : Nat
  /-- Value of the input when the listener runs. -/
  value : JSString
  /-- Checked state of the input when the listener runs. -/
  checked : Bool
deriving DecidableEq, Repr

/-- The edit that precedes the listener: only the target changes. -/
def applyEdit (page : Page) (e : FieldEvent) : Page :=
  { page with
    inputs := page.inputs.modify (fun inp => { inp with value := e.value, checked := e.checked })
      e.target }

/-- The listeners installed by `setupRealTimeValidation`: `validateField(this)`. -/
def handleEvent (page : Page) (e : FieldEvent) : Option Page :=
  (validateField (applyEdit page e) e.target).map Prod.fst

/-- A sequence of events, handled one after the other. -/
def handleEvents : Page → List FieldEvent → Option Page
  | page, [] => some page
  | page, e :: es =>
    match handleEvent page e with
    | none => none
    | some page1 => handleEvents page1 es

/-- What the page shows for the input at index `i`: its two marks and the text of its
error element. -/
def display (page : Page) (i : Nat) : Option (Bool × Bool × Option String) :=
  (page.inputs[i]?).map fun inp => (inp.hasValid, inp.hasInvalid, page.errorText (inp.name ++ "Error"))

/-- What `validateField` yields for the input at index `i` on the current values. -/
def freshDisplay (page : Page) (i : Nat) : Option (Bool × Bool × Option String) :=
  (validateField page i).bind fun r => display r.1 i

/-- The document has what the validation code looks up: an error element for every
input of the form and, if the form has a `confirmPassword` field, an input with id
`password`. -/
def Page.Complete (page : Page) : Prop :=
  (∀ inp ∈ page.inputs, (page.errorText (inp.name ++ "Error")).isSome = true) ∧
  (∀ inp ∈ page.inputs, inp.name = "confirmPassword" → (passwordValue page).isSome = true)

/-- The inputs of the form have pairwise different names, so that no two of them share
an error element. -/
def Page.DistinctNames (page : Page) : Prop :=
  (page.inputs.map (fun inp => inp.name)).Nodup

/-- What the validation code never writes: id, name, value and checked state. -/
def Input.data (inp : Input) : String × String × JSString × Bool :=
  (inp.id, inp.name, inp.value, inp.checked)

/-- The guard of `updateFieldValidation`: `field.value.trim() === ''` and
`field.name !== 'terms'`. -/
def Input.blank (field : Input) : Prop :=
  trim field.value = [] ∧ field.name ≠ "terms"

instance (field : Input) : Decidable field.blank := by
  unfold Input.blank
  infer_instance

/-- The field as `updateFieldValidation` leaves it. -/
def marked (field : Input) (isValid : Bool) : Input :=
  if field.blank then { field with hasValid := false, hasInvalid := false }
  else { field with hasValid := isValid, hasInvalid := !isValid }

/-- The text that `updateFieldValidation` writes to the error element. -/
def shownText (field : Input) (errorMessage : String) : String :=
  if field.blank then "" else errorMessage

/-- The page after a successful `validateField` on the input `f` at index `i`, when the
switch ended with `(v, msg)`. -/
def afterField (page : Page) (i : Nat) (f : Input) (v : Bool) (msg : String) : Page where
  inputs := page.inputs.set i (marked f v)
  errorText := fun j => if j = f.name ++ "Error" then some (shownText f msg) else page.errorText j

/-- What one call of `validateField` determines for the input at index `j`: the input
as it is left, the text of its error element, and the returned flag. -/
def outcome (page : Page) (j : Nat) : Option (Input × String × Bool) :=
  (page.inputs[j]?).bind fun f =>
    (fieldVerdict page f).map fun r => (marked f r.1, shownText f r.2, r.1)

instance (page : Page) : Decidable page.Complete := by
  unfold Page.Complete
  infer_instance

instance (page : Page) : Decidable page.DistinctNames := by
  unfold Page.DistinctNames
  infer_instance

/-- An unmarked input whose id is its name. -/
def freshInput (name : String) (value : JSString) (checked : Bool) : Input :=
  { id := name, name := name, value := value, checked := checked,
    hasValid := false, hasInvalid := false }

/-- The sign-up form with the seven fields that `validateField` knows, each with an
empty error element `<name>Error`, before any validation. -/
def signupPage (fullName email password confirmPassword phone age : JSString)
    (terms : Bool) : Page where
  inputs := [
    freshInput "fullName" fullName false,
    freshInput "email" email false,
    freshInput "password" password false,
    freshInput "confirmPassword" confirmPassword false,
    freshInput "phone" phone false,
    freshInput "age" age false,
    freshInput "terms" (js "on") terms]
  errorText := fun j =>
    if j ∈ ["fullNameError", "emailError", "passwordError", "confirmPasswordError",
      "phoneError", "ageError", "termsError"] then some "" else none

/-! ## The matcher -/

theorem repGo_iff (p : Nat → Bool) (k : Nat → JSString → Bool) (rest : JSString) :
    ∀ (lo : Nat) (hi : Option Nat) (pos : Nat),
      repGo p k lo hi pos rest = true ↔
        ∃ n, lo ≤ n ∧ (∀ h, hi = some h → n ≤ h) ∧ n ≤ rest.length ∧
          (∀ c ∈ rest.take n, p c = true) ∧ k (pos + n) (rest.drop n) = true := by
  induction rest with
  | nil =>
    intro lo hi pos
    simp only [repGo, Bool.and_eq_true, beq_iff_eq, List.length_nil, Nat.le_zero_eq,
      List.take_nil, List.not_mem_nil, false_implies, implies_true, List.drop_nil, true_and]
    constructor
    · rintro ⟨h0, hk⟩
      exact ⟨0, by omega, by intro h _; omega, rfl, by simpa using hk⟩
    · rintro ⟨n, h1, _, h3, hk⟩
      subst h3
      exact ⟨by omega, by simpa using hk⟩
  | cons c t ih =>
    intro lo hi pos
    simp only [repGo, Bool.or_eq_true, Bool.and_eq_true, bne_iff_ne, ne_eq, beq_iff_eq, ih]
    constructor
    · rintro (⟨⟨hhi, hpc⟩, n, h1, h2, h3, h4, hk⟩ | ⟨h0, hk⟩)
      · refine ⟨n + 1, by omega, ?_, by simp; omega, ?_, ?_⟩
        · intro h hh
          subst hh
          have := h2 (h - 1) rfl
          have : h ≠ 0 := fun h0 => hhi (by rw [h0])
          omega
        · intro x hx
          simp only [List.take_succ_cons, List.mem_cons] at hx
          rcases hx with rfl | hx
          · exact hpc
          · exact h4 x hx
        · simpa [Nat.add_assoc, Nat.add_comm 1 n] using hk
      · exact ⟨0, by omega, by intro h _; omega, by omega, by simp, by simpa using hk⟩
    · rintro ⟨n, h1, h2, h3, h4, hk⟩
      cases n with
      | zero =>
        right
        exact ⟨by omega, by simpa using hk⟩
      | succ m =>
        left
        simp only [List.take_succ_cons, List.mem_cons, forall_eq_or_imp] at h4
        refine ⟨⟨?_, h4.1⟩, m, by omega, ?_, by simpa using h3, h4.2, ?_⟩
        · intro hh
          have := h2 0 hh
          omega
        · intro h hh
          cases hi with
          | none => simp at hh
          | some h0 =>
            simp only [Option.map_some', Option.some.injEq] at hh
            have := h2 h0 rfl
            omega
        · simpa [Nat.add_assoc, Nat.add_comm 1 m] using hk

theorem run_seq (a b : Regex) (pos : Nat) (rest : JSString) (k : Nat → JSString → Bool) :
    (Regex.seq a b).run pos rest k = a.run pos rest (fun pos1 rest1 => b.run pos1 rest1 k) :=
  rfl

theorem run_rep (p : Nat → Bool) (lo : Nat) (hi : Option Nat) (pos : Nat) (rest : JSString)
    (k : Nat → JSString → Bool) :
    (Regex.rep p lo hi).run pos rest k = repGo p k lo hi pos rest :=
  rfl

theorem cls_run_iff (q : Nat → Bool) (pos : Nat) (l : JSString) (k : Nat → JSString → Bool) :
    (Regex.cls q).run pos l k = true ↔
      ∃ c t, l = c :: t ∧ q c = true ∧ k (pos + 1) t = true := by
  cases l with
  | nil => simp [Regex.run]
  | cons c t =>
    simp only [Regex.run, Bool.and_eq_true, List.cons.injEq]
    constructor
    · rintro ⟨h1, h2⟩
      exact ⟨c, t, ⟨rfl, rfl⟩, h1, h2⟩
    · rintro ⟨_, _, ⟨rfl, rfl⟩, h1, h2⟩
      exact ⟨h1, h2⟩

theorem testFrom_bol (r : Regex) (s : JSString) :
    ∀ pos, testFrom (.seq .bol r) (pos + 1) s = false := by
  induction s with
  | nil => intro pos; simp [testFrom, Regex.run]
  | cons c t ih => intro pos; simp [testFrom, Regex.run, ih]

theorem test_bol (r : Regex) (s : JSString) :
    (Regex.seq .bol r).test s = r.run 0 s (fun _ _ => true) := by
  cases s with
  | nil => simp [Regex.test, testFrom, Regex.run]
  | cons c t => simp [Regex.test, testFrom, Regex.run, testFrom_bol]

theorem testFrom_alt_bol (a b : Regex) (s : JSString) :
    ∀ pos, testFrom (.alt (.seq .bol a) (.seq .bol b)) (pos + 1) s = false := by
  induction s with
  | nil => intro pos; simp [testFrom, Regex.run]
  | cons c t ih => intro pos; simp [testFrom, Regex.run, ih]

theorem test_alt_bol (a b : Regex) (s : JSString) :
    (Regex.alt (.seq .bol a) (.seq .bol b)).test s =
      (a.run 0 s (fun _ _ => true) || b.run 0 s (fun _ _ => true)) := by
  cases s with
  | nil => simp [Regex.test, testFrom, Regex.run]
  | cons c t => simp [Regex.test, testFrom, Regex.run, testFrom_alt_bol]

/-- A quantified class without upper bound followed by `$` matches exactly the inputs
that are long enough and made of the class. -/
theorem rep_eol_iff (p : Nat → Bool) (lo pos : Nat) (rest : JSString) :
    (Regex.seq (.rep p lo none) .eol).run pos rest (fun _ _ => true) = true ↔
      lo ≤ rest.length ∧ ∀ c ∈ rest, p c = true := by
  simp only [Regex.run, repGo_iff, Bool.and_true, List.isEmpty_eq_true]
  constructor
  · rintro ⟨n, h1, _, h3, h4, h5⟩
    have hn : n = rest.length := by
      have := List.drop_eq_nil_iff.mp h5
      omega
    subst hn
    exact ⟨h1, by simpa using h4⟩
  · rintro ⟨h1, h2⟩
    exact ⟨rest.length, h1, by simp, le_refl _, by simpa using h2, by simp⟩

/-- The lookahead `(?=.*q)`: some code unit of class `q` is reachable over code units
that are not line terminators. -/
theorem look_dot_iff (q : Nat → Bool) (pos : Nat) (rest : JSString)
    (k : Nat → JSString → Bool) :
    (Regex.look (.seq (.rep isDot 0 none) (.cls q))).run pos rest k = true ↔
      (∃ n, (∀ c ∈ rest.take n, isDot c = true) ∧ ∃ c t, rest.drop n = c :: t ∧ q c = true) ∧
        k pos rest = true := by
  simp only [Regex.run, repGo_iff, Bool.and_eq_true, cls_run_iff]
  constructor
  · rintro ⟨⟨n, _, _, _, h4, c, t, h5, h6, _⟩, hk⟩
    exact ⟨⟨n, h4, c, t, h5, h6⟩, hk⟩
  · rintro ⟨⟨n, h4, c, t, h5, h6⟩, hk⟩
    refine ⟨⟨n, Nat.zero_le _, by simp, ?_, h4, c, t, h5, h6, trivial⟩, hk⟩
    by_contra hlt
    have : rest.drop n = [] := List.drop_eq_nil_iff.mpr (by omega)
    rw [this] at h5
    cases h5

theorem seq_look_dot_iff (q : Nat → Bool) (b : Regex) (pos : Nat) (rest : JSString)
    (k : Nat → JSString → Bool) :
    (Regex.seq (.look (.seq (.rep isDot 0 none) (.cls q))) b).run pos rest k = true ↔
      (∃ n, (∀ c ∈ rest.take n, isDot c = true) ∧ ∃ c t, rest.drop n = c :: t ∧ q c = true) ∧
        b.run pos rest k = true :=
  look_dot_iff q pos rest (fun pos1 rest1 => b.run pos1 rest1 k)

theorem look_dot_of_all_dot (q : Nat → Bool) (rest : JSString)
    (hall : ∀ c ∈ rest, isDot c = true) :
    (∃ n, (∀ c ∈ rest.take n, isDot c = true) ∧ ∃ c t, rest.drop n = c :: t ∧ q c = true) ↔
      ∃ c ∈ rest, q c = true := by
  constructor
  · rintro ⟨n, _, c, t, h5, h6⟩
    refine ⟨c, ?_, h6⟩
    have : c ∈ rest.drop n := by rw [h5]; exact List.mem_cons_self _ _
    exact List.mem_of_mem_drop this
  · rintro ⟨c, hc, hq⟩
    obtain ⟨a, b, rfl⟩ := List.append_of_mem hc
    refine ⟨a.length, fun x hx => hall x (List.mem_of_mem_take hx), c, b, by simp, hq⟩

/-- What `validatePassword` computes: on top of the length and the three kinds of
characters, the regex demands that no code unit is a line terminator, because `.` does
not match one. -/
theorem validatePassword_iff (p : JSString) :
    validatePassword p = true ↔
      8 ≤ p.length ∧ (∀ c ∈ p, isLineTerminator c = false) ∧
        (∃ c ∈ p, isLower c = true) ∧ (∃ c ∈ p, isUpper c = true) ∧
        (∃ c ∈ p, isDigit c = true) := by
  unfold validatePassword passwordRegex
  rw [test_bol, seq_look_dot_iff, seq_look_dot_iff, seq_look_dot_iff, rep_eol_iff]
  have hd : (∀ c ∈ p, isLineTerminator c = false) ↔ ∀ c ∈ p, isDot c = true := by
    simp [isDot]
  rw [hd]
  constructor
  · rintro ⟨h1, h2, h3, h8, hall⟩
    exact ⟨h8, hall, (look_dot_of_all_dot _ _ hall).mp h1, (look_dot_of_all_dot _ _ hall).mp h2,
      (look_dot_of_all_dot _ _ hall).mp h3⟩
  · rintro ⟨h8, hall, h1, h2, h3⟩
    exact ⟨(look_dot_of_all_dot _ _ hall).mpr h1, (look_dot_of_all_dot _ _ hall).mpr h2,
      (look_dot_of_all_dot _ _ hall).mpr h3, h8, hall⟩

/-- Trimming removes a block of whitespace at each end and nothing else. -/
theorem trim_decomp (s : JSString) :
    ∃ w1 w2, s = w1 ++ trim s ++ w2 ∧ (∀ c ∈ w1, isWhiteSpace c = true) ∧
      (∀ c ∈ w2, isWhiteSpace c = true) := by
  refine ⟨s.takeWhile isWhiteSpace,
    (((s.dropWhile isWhiteSpace).reverse).takeWhile isWhiteSpace).reverse, ?_, ?_, ?_⟩
  · have h1 := List.takeWhile_append_dropWhile isWhiteSpace s
    have h2 := List.takeWhile_append_dropWhile isWhiteSpace (s.dropWhile isWhiteSpace).reverse
    have h3 : s.dropWhile isWhiteSpace =
        trim s ++ (((s.dropWhile isWhiteSpace).reverse).takeWhile isWhiteSpace).reverse := by
      have := congrArg List.reverse h2
      rw [List.reverse_append, List.reverse_reverse] at this
      exact this.symm
    rw [List.append_assoc, ← h3, h1]
  · intro c hc
    exact List.mem_takeWhile_imp hc
  · intro c hc
    exact List.mem_takeWhile_imp (List.mem_reverse.mp hc)

theorem validateName_iff (s : JSString) :
    validateName s = true ↔
      2 ≤ (trim s).length ∧
        ∀ c ∈ trim s, isLower c = true ∨ isUpper c = true ∨ isWhiteSpace c = true := by
  unfold validateName nameRegex
  rw [test_bol, rep_eol_iff]
  simp only [Bool.or_eq_true, or_assoc]

/-- Shape of what `emailRegex` accepts: `a@b.c` with non-empty parts free of whitespace
and of `@`. -/
theorem emailRegex_shape (t : JSString) (h : emailRegex.test t = true) :
    ∃ a b c, t = a ++ 64 :: (b ++ 46 :: c) ∧ a ≠ [] ∧ b ≠ [] ∧ c ≠ [] ∧
      (∀ x ∈ a, isEmailChar x = true) ∧ (∀ x ∈ b, isEmailChar x = true) ∧
      (∀ x ∈ c, isEmailChar x = true) := by
  unfold emailRegex at h
  rw [test_bol, run_seq, run_rep, repGo_iff] at h
  obtain ⟨n1, hn1, _, hl1, ha, h⟩ := h
  rw [run_seq, cls_run_iff] at h
  obtain ⟨c1, t1, hd1, hc1, h⟩ := h
  rw [run_seq, run_rep, repGo_iff] at h
  obtain ⟨n2, hn2, _, hl2, hb, h⟩ := h
  rw [run_seq, cls_run_iff] at h
  obtain ⟨c2, t2, hd2, hc2, h⟩ := h
  have h3 := (rep_eol_iff isEmailChar 1 _ t2).mp h
  have e1 : c1 = 64 := by simpa using hc1
  have e2 : c2 = 46 := by simpa using hc2
  subst e1 e2
  refine ⟨t.take n1, t1.take n2, t2, ?_, ?_, ?_, ?_, ha, hb, h3.2⟩
  · conv_lhs => rw [← List.take_append_drop n1 t, hd1, ← List.take_append_drop n2 t1, hd2]
  · intro hnil
    have := congrArg List.length hnil
    rw [List.length_take, List.length_nil] at this
    omega
  · intro hnil
    have := congrArg List.length hnil
    rw [List.length_take, List.length_nil] at this
    omega
  · intro hnil
    rw [hnil] at h3
    simp at h3

/-! ## Claims about the validator functions -/

/-- C1: the rule "at least 8 characters with lowercase, uppercase and digit" and
`validatePassword` part on a password that ends in U+2028 LINE SEPARATOR, and on one
that ends in a line feed: either has nine code units and all three kinds of characters,
and `validatePassword` returns false. -/
theorem validatePassword_rejects_line_terminator :
    (validatePassword (js "Abcdefg1\u2028") = false ∧
      8 ≤ (js "Abcdefg1\u2028").length ∧ (∃ c ∈ js "Abcdefg1\u2028", isLower c = true) ∧
      (∃ c ∈ js "Abcdefg1\u2028", isUpper c = true) ∧
      (∃ c ∈ js "Abcdefg1\u2028", isDigit c = true)) ∧
    (validatePassword (js "Abcdefg1\n") = false ∧
      8 ≤ (js "Abcdefg1\n").length ∧ (∃ c ∈ js "Abcdefg1\n", isLower c = true) ∧
      (∃ c ∈ js "Abcdefg1\n", isUpper c = true) ∧
      (∃ c ∈ js "Abcdefg1\n", isDigit c = true)) := by
  decide

/-- C2, as stated, fails: the name `a<TAB>b` has a non-empty trimmed value and is
accepted by `validateName`, although its trimmed value holds a tab, which is neither a
letter nor the space U+0020. -/
theorem validateName_accepts_tab :
    trim (js "a\tb") ≠ [] ∧ validateName (js "a\tb") = true ∧
      ¬ (2 ≤ (trim (js "a\tb")).length ∧
          ∀ c ∈ trim (js "a\tb"), isLower c = true ∨ isUpper c = true ∨ c = 32) := by
  decide

/-- C2, amended: for every string whose trimmed value is non-empty, `validateName`
returns true exactly when the trimmed value has at least 2 code units and each of them
is an ASCII letter or a whitespace character of the class `\s`. -/
theorem validateName_letters_whitespace (s : JSString) (_hs : trim s ≠ []) :
    validateName s = true ↔
      2 ≤ (trim s).length ∧
        ∀ c ∈ trim s, isLower c = true ∨ isUpper c = true ∨ isWhiteSpace c = true :=
  validateName_iff s

theorem validateName_letters_whitespace_witness :
    trim (js " Jo Ann ") ≠ [] ∧
    (validateName (js " Jo Ann ") = true ↔
      2 ≤ (trim (js " Jo Ann ")).length ∧
        ∀ c ∈ trim (js " Jo Ann "),
          isLower c = true ∨ isUpper c = true ∨ isWhiteSpace c = true) :=
  ⟨by decide, validateName_letters_whitespace (js " Jo Ann ") (by decide)⟩

/-- C6: a string that `validateEmail` accepts contains exactly one `@` (code unit 64)
and a `.` (code unit 46) somewhere after it. -/
theorem validateEmail_one_at_then_dot (e : JSString) (h : validateEmail e = true) :
    e.count 64 = 1 ∧ ∃ pre post, e = pre ++ 64 :: post ∧ 46 ∈ post := by
  obtain ⟨w1, w2, he, hw1, hw2⟩ := trim_decomp e
  obtain ⟨a, b, c, ht, _, _, _, ha, hb, hc⟩ := emailRegex_shape (trim e) h
  have nws : ∀ l : JSString, (∀ x ∈ l, isWhiteSpace x = true) → List.count 64 l = 0 := by
    intro l hl
    refine List.count_eq_zero.mpr (fun hmem => ?_)
    have := hl 64 hmem
    revert this
    decide
  have nec : ∀ l : JSString, (∀ x ∈ l, isEmailChar x = true) → List.count 64 l = 0 := by
    intro l hl
    refine List.count_eq_zero.mpr (fun hmem => ?_)
    have := hl 64 hmem
    revert this
    decide
  constructor
  · rw [he, ht]
    simp [List.count_append, List.count_cons, nws w1 hw1, nws w2 hw2, nec a ha, nec b hb,
      nec c hc]
  · refine ⟨w1 ++ a, b ++ 46 :: c ++ w2, ?_, by simp⟩
    conv_lhs => rw [he, ht]
    simp

theorem validateEmail_one_at_then_dot_witness :
    validateEmail (js "ann@site.org") = true ∧
    ((js "ann@site.org").count 64 = 1 ∧
      ∃ pre post, js "ann@site.org" = pre ++ 64 :: post ∧ 46 ∈ post) :=
  ⟨by decide, validateEmail_one_at_then_dot (js "ann@site.org") (by decide)⟩

/-- C9: `validateConfirmPassword(c, p)` returns true exactly when `c` is non-empty and
equal to `p`; with `p = 'Abc12345'`, `'Abc12345'` is valid and `'Abc12346'` is not. -/
theorem validateConfirmPassword_iff :
    (∀ c p : JSString, validateConfirmPassword c p = true ↔ c ≠ [] ∧ c = p) ∧
      validateConfirmPassword (js "Abc12345") (js "Abc12345") = true ∧
      validateConfirmPassword (js "Abc12346") (js "Abc12345") = false := by
  refine ⟨fun c p => ?_, by decide, by decide⟩
  simp [validateConfirmPassword, and_comm]

/-! ## The phone field -/

theorem repGo_zero_zero (p : Nat → Bool) (k : Nat → JSString → Bool) (pos : Nat)
    (rest : JSString) : repGo p k 0 (some 0) pos rest = k pos rest := by
  cases rest <;> simp [repGo]

/-- A class under `?`: skip it, or take one code unit of it. -/
theorem opt_run_iff (p : Nat → Bool) (pos : Nat) (rest : JSString)
    (k : Nat → JSString → Bool) :
    (Regex.rep p 0 (some 1)).run pos rest k = true ↔
      k pos rest = true ∨ ∃ c t, rest = c :: t ∧ p c = true ∧ k (pos + 1) t = true := by
  rw [run_rep]
  cases rest with
  | nil => simp [repGo]
  | cons c t =>
    have e : repGo p k (0 - 1) (Option.map (fun x => x - 1) (some 1)) (pos + 1) t =
        k (pos + 1) t := repGo_zero_zero p k (pos + 1) t
    simp only [repGo, e, Bool.or_eq_true, Bool.and_eq_true, List.cons.injEq]
    constructor
    · rintro (⟨⟨_, h1⟩, h2⟩ | ⟨_, h⟩)
      · exact Or.inr ⟨c, t, ⟨rfl, rfl⟩, h1, h2⟩
      · exact Or.inl h
    · rintro (h | ⟨_, _, ⟨rfl, rfl⟩, h1, h2⟩)
      · exact Or.inr ⟨by decide, h⟩
      · exact Or.inl ⟨⟨by decide, h1⟩, h2⟩

/-- First alternative of `phoneRegex`, after the optional `+`: a digit from 1 to 9 and
up to 15 more digits. -/
theorem phone_digits_iff (pos : Nat) (rest : JSString) :
    (Regex.seq (.cls (fun c => decide (49 ≤ c) && decide (c ≤ 57)))
        (.seq (.rep isDigit 0 (some 15)) .eol)).run pos rest (fun _ _ => true) = true ↔
      ∃ c t, rest = c :: t ∧ 49 ≤ c ∧ c ≤ 57 ∧ t.length ≤ 15 ∧ ∀ x ∈ t, isDigit x = true := by
  rw [run_seq, cls_run_iff]
  constructor
  · rintro ⟨c, t, rfl, hc, h⟩
    rw [run_seq, run_rep, repGo_iff] at h
    obtain ⟨m, _, h2, h3, h4, h5⟩ := h
    have hnil : t.drop m = [] := by simpa [Regex.run] using h5
    have hm : m = t.length := by
      have := List.drop_eq_nil_iff.mp hnil
      omega
    subst hm
    simp only [Bool.and_eq_true, decide_eq_true_eq] at hc
    exact ⟨c, t, rfl, hc.1, hc.2, h2 15 rfl, by simpa using h4⟩
  · rintro ⟨c, t, rfl, h1, h2, h3, h4⟩
    refine ⟨c, t, rfl, by simp [h1, h2], ?_⟩
    rw [run_seq, run_rep, repGo_iff]
    refine ⟨t.length, Nat.zero_le _, ?_, le_refl _, by simpa using h4, by simp [Regex.run]⟩
    intro h hh
    cases hh
    exact h3

/-- Shape of what `phoneRegex` accepts: an optional `+` and then either 1 to 16 digits
not starting with 0, or at least 10 code units of the class of the second alternative. -/
theorem phoneRegex_shape (w : JSString) (h : phoneRegex.test w = true) :
    ∃ body, (w = body ∨ w = 43 :: body) ∧ (∀ c ∈ body, isPhoneBody c = true) ∧
      ((1 ≤ body.length ∧ body.length ≤ 16 ∧ (∀ c ∈ body, isDigit c = true) ∧
          body.head? ≠ some 48) ∨ 10 ≤ body.length) := by
  unfold phoneRegex at h
  rw [test_alt_bol, Bool.or_eq_true] at h
  rcases h with h | h
  · rw [run_seq, opt_run_iff] at h
    have key : ∀ (pos : Nat) (rest : JSString),
        (Regex.seq (.cls (fun c => decide (49 ≤ c) && decide (c ≤ 57)))
          (.seq (.rep isDigit 0 (some 15)) .eol)).run pos rest (fun _ _ => true) = true →
        (∀ c ∈ rest, isPhoneBody c = true) ∧
          ((1 ≤ rest.length ∧ rest.length ≤ 16 ∧ (∀ c ∈ rest, isDigit c = true) ∧
            rest.head? ≠ some 48) ∨ 10 ≤ rest.length) := by
      intro pos rest hr
      obtain ⟨c, t, rfl, h1, h2, h3, h4⟩ := (phone_digits_iff pos rest).mp hr
      have hd : ∀ x ∈ c :: t, isDigit x = true := by
        intro x hx
        rcases List.mem_cons.mp hx with rfl | hx
        · simp [isDigit]; omega
        · exact h4 x hx
      refine ⟨fun x hx => by simp [isPhoneBody, hd x hx], Or.inl ⟨by simp, by simpa using h3, hd, ?_⟩⟩
      simp only [List.head?_cons, ne_eq, Option.some.injEq]
      omega
    rcases h with h | ⟨c, t, rfl, hc, h⟩
    · exact ⟨w, Or.inl rfl, key _ _ h⟩
    · have : c = 43 := by simpa using hc
      subst this
      exact ⟨t, Or.inr rfl, key _ _ h⟩
  · rw [run_seq, opt_run_iff] at h
    have key : ∀ (pos : Nat) (rest : JSString),
        (Regex.seq (.rep (· == 40) 0 (some 1))
          (.seq (.rep isPhoneBody 10 none) .eol)).run pos rest (fun _ _ => true) = true →
        (∀ c ∈ rest, isPhoneBody c = true) ∧ 10 ≤ rest.length := by
      intro pos rest hr
      rw [run_seq, opt_run_iff] at hr
      rcases hr with hr | ⟨c, t, rfl, hc, hr⟩
      · have := (rep_eol_iff isPhoneBody 10 _ rest).mp hr
        exact ⟨this.2, this.1⟩
      · have := (rep_eol_iff isPhoneBody 10 _ t).mp hr
        have hc40 : c = 40 := by simpa using hc
        subst hc40
        refine ⟨?_, by simp; omega⟩
        intro x hx
        rcases List.mem_cons.mp hx with rfl | hx
        · decide
        · exact this.2 x hx
    rcases h with h | ⟨c, t, rfl, hc, h⟩
    · exact ⟨w, Or.inl rfl, (key _ _ h).1, Or.inr (key _ _ h).2⟩
    · have : c = 43 := by simpa using hc
      subst this
      exact ⟨t, Or.inr rfl, (key _ _ h).1, Or.inr (key _ _ h).2⟩

/-- C3, as stated, fails: the phone check accepts `5`, which has one digit, not ten. -/
theorem phoneFieldCheck_accepts_one_digit :
    js "5" ≠ [] ∧ phoneFieldCheck (js "5") = true ∧
      ¬ 10 ≤ (js "5").countP isDigit := by
  decide

/-- C3, amended: a non-empty string that the phone check accepts consists only of
digits, `+`, `(`, `)`, `-` and whitespace; with the whitespace removed it is an
optional leading `+` followed by a body of digits and the separators `(`, `)`, `-`, where
the body either is 1 to 16 digits not starting with 0, or has at least 10 code units.
The empty string is accepted. -/
theorem phoneFieldCheck_shape (v : JSString) (hv : v ≠ []) (h : phoneFieldCheck v = true) :
    phoneFieldCheck [] = true ∧
    (∀ c ∈ v, isDigit c = true ∨ c = 43 ∨ c = 40 ∨ c = 41 ∨ c = 45 ∨ isWhiteSpace c = true) ∧
    ∃ body, (removeWhiteSpace v = body ∨ removeWhiteSpace v = 43 :: body) ∧
      (∀ c ∈ body, isDigit c = true ∨ c = 40 ∨ c = 41 ∨ c = 45) ∧
      ((1 ≤ body.length ∧ body.length ≤ 16 ∧ (∀ c ∈ body, isDigit c = true) ∧
          body.head? ≠ some 48) ∨ 10 ≤ body.length) := by
  have hp : phoneRegex.test (removeWhiteSpace v) = true := by
    simpa [phoneFieldCheck, hv, validatePhone] using h
  obtain ⟨body, hw, hb, hlen⟩ := phoneRegex_shape _ hp
  have hbody : ∀ c ∈ body, isDigit c = true ∨ c = 40 ∨ c = 41 ∨ c = 45 := by
    intro c hc
    have hmem : c ∈ removeWhiteSpace v := by
      rcases hw with hw | hw <;> rw [hw] <;> simp [hc]
    have hnws : isWhiteSpace c = false := by
      have := (List.mem_filter.mp hmem).2
      simpa using this
    have := hb c hc
    simp only [isPhoneBody, hnws, Bool.or_false, Bool.or_eq_true, beq_iff_eq] at this
    tauto
  refine ⟨by decide, ?_, body, hw, hbody, hlen⟩
  intro c hc
  by_cases hws : isWhiteSpace c = true
  · simp [hws]
  · have hmem : c ∈ removeWhiteSpace v := List.mem_filter.mpr ⟨hc, by simpa using hws⟩
    rcases hw with hw | hw
    · rw [hw] at hmem
      have := hbody c hmem
      tauto
    · rw [hw] at hmem
      rcases List.mem_cons.mp hmem with rfl | hmem
      · simp
      · have := hbody c hmem
        tauto

theorem phoneFieldCheck_shape_witness :
    phoneFieldCheck [] = true ∧
    (∀ c ∈ js "+1 (555) 123-4567",
      isDigit c = true ∨ c = 43 ∨ c = 40 ∨ c = 41 ∨ c = 45 ∨ isWhiteSpace c = true) ∧
    ∃ body, (removeWhiteSpace (js "+1 (555) 123-4567") = body ∨
        removeWhiteSpace (js "+1 (555) 123-4567") = 43 :: body) ∧
      (∀ c ∈ body, isDigit c = true ∨ c = 40 ∨ c = 41 ∨ c = 45) ∧
      ((1 ≤ body.length ∧ body.length ≤ 16 ∧ (∀ c ∈ body, isDigit c = true) ∧
          body.head? ≠ some 48) ∨ 10 ≤ body.length) :=
  phoneFieldCheck_shape (js "+1 (555) 123-4567") (by decide) (by decide)

/-! ## The age field -/

theorem isDigit_iff (c : Nat) : isDigit c = true ↔ 48 ≤ c ∧ c ≤ 57 := by
  simp [isDigit]

theorem not_isWhiteSpace_of_isDigit (c : Nat) (h : isDigit c = true) :
    isWhiteSpace c = false := by
  rw [isDigit_iff] at h
  simp only [isWhiteSpace, isLineTerminator, Bool.or_eq_false_iff, Bool.and_eq_false_iff,
    beq_eq_false_iff_ne, decide_eq_false_iff_not, ne_eq]
  omega

theorem isRadixDigit_ten (c : Nat) : isRadixDigit 10 c = isDigit c := by
  unfold isRadixDigit digitValue
  by_cases h1 : isDigit c = true
  · have := (isDigit_iff c).mp h1
    simp only [h1, if_true, decide_eq_true_eq]
    omega
  · by_cases h2 : isLower c = true
    · simp [h1, h2]
    · by_cases h3 : isUpper c = true
      · simp [h1, h2, h3]
      · simp [h1, h2, h3]

theorem digitValue_digit (d : Nat) (h : d < 10) : digitValue (d + 48) = some d := by
  have : isDigit (d + 48) = true := (isDigit_iff _).mpr ⟨by omega, by omega⟩
  simp [digitValue, this]

theorem radixValue_digits (L : List Nat) (h : ∀ d ∈ L, d < 10) :
    radixValue 10 ((L.reverse).map (· + 48)) = Nat.ofDigits 10 L := by
  induction L with
  | nil => simp [radixValue]
  | cons d L ih =>
    have hd : d < 10 := h d (List.mem_cons_self _ _)
    have ih1 := ih (fun x hx => h x (List.mem_cons_of_mem _ hx))
    unfold radixValue at ih1 ⊢
    rw [List.reverse_cons, List.map_append, List.foldl_append, ih1]
    simp only [List.map_cons, List.map_nil, List.foldl_cons, List.foldl_nil,
      digitValue_digit d hd, Option.getD_some, Nat.ofDigits_cons]
    omega

theorem decimal_ne_nil (n : Nat) : decimal n ≠ [] := by
  unfold decimal
  split
  · simp
  · rename_i h
    simp [Nat.digits_ne_nil_iff_ne_zero, h]

theorem decimal_isDigit (n : Nat) : ∀ c ∈ decimal n, isDigit c = true := by
  unfold decimal
  split
  · intro c hc
    simp only [List.mem_singleton] at hc
    subst hc
    decide
  · intro c hc
    simp only [List.mem_map, List.mem_reverse] at hc
    obtain ⟨d, hd, rfl⟩ := hc
    have := Nat.digits_lt_base (by decide : 1 < 10) hd
    rw [isDigit_iff]
    omega

theorem radixValue_decimal (n : Nat) : radixValue 10 (decimal n) = n := by
  unfold decimal
  split
  · rename_i h
    subst h
    decide
  · rw [radixValue_digits _ (fun d hd => Nat.digits_lt_base (by decide) hd),
      Nat.ofDigits_digits]

theorem radixAndRest_of_head_ne (S : JSString) (h : S.head? ≠ some 48) :
    radixAndRest S = (10, S) := by
  unfold radixAndRest
  split
  · simp at h
  · simp at h
  · rfl

theorem radixAndRest_of_digits (S : JSString) (h : ∀ c ∈ S, isDigit c = true) :
    radixAndRest S = (10, S) := by
  unfold radixAndRest
  split
  · have := h 120 (by simp)
    exact absurd this (by decide)
  · have := h 88 (by simp)
    exact absurd this (by decide)
  · rfl

/-- What `parseInt` returns on a string of decimal digits, plain or after a minus sign. -/
theorem parseInt_digits (ds : JSString) (hne : ds ≠ [])
    (hd : ∀ c ∈ ds, isDigit c = true) :
    parseInt ds = some (radixValue 10 ds : Int) ∧
      parseInt (45 :: ds) = some (-(radixValue 10 ds : Int)) := by
  obtain ⟨c, t, rfl⟩ := List.exists_cons_of_ne_nil hne
  have hc : isDigit c = true := hd c (List.mem_cons_self _ _)
  have hws : isWhiteSpace c = false := not_isWhiteSpace_of_isDigit c hc
  have hc' := (isDigit_iff c).mp hc
  have h43 : c ≠ 43 := by omega
  have h45 : c ≠ 45 := by omega
  have htw : List.takeWhile (isRadixDigit 10) (c :: t) = c :: t := by
    rw [List.takeWhile_eq_self_iff]
    intro x hx
    rw [isRadixDigit_ten]
    exact hd x hx
  have ws45 : isWhiteSpace 45 = false := by decide
  constructor
  · simp [parseInt, afterSign, List.dropWhile_cons, hws, h43, h45,
      radixAndRest_of_digits _ hd, htw]
  · simp [parseInt, afterSign, List.dropWhile_cons, ws45,
      radixAndRest_of_digits _ hd, htw]

theorem parseInt_numeral (n : Int) : parseInt (numeral n) = some n := by
  cases n with
  | ofNat n =>
    simp only [numeral]
    rw [(parseInt_digits _ (decimal_ne_nil n) (decimal_isDigit n)).1, radixValue_decimal]
    rfl
  | negSucc n =>
    simp only [numeral]
    rw [(parseInt_digits _ (decimal_ne_nil (n + 1)) (decimal_isDigit (n + 1))).2,
      radixValue_decimal]
    rfl

theorem numeral_ne_nil (n : Int) : numeral n ≠ [] := by
  cases n with
  | ofNat n => exact decimal_ne_nil n
  | negSucc n => simp [numeral]

/-- A string that has no decimal digit after its leading whitespace and sign parses
to `NaN`. -/
theorem parseInt_eq_none (v : JSString)
    (h : ∀ c, (afterSign v).head? = some c → isDigit c = false) : parseInt v = none := by
  have h48 : (afterSign v).head? ≠ some 48 := by
    intro h0
    have := h 48 h0
    revert this
    decide
  have htw : List.takeWhile (isRadixDigit 10) (afterSign v) = [] := by
    cases hS : afterSign v with
    | nil => rfl
    | cons c t =>
      have := h c (by rw [hS]; rfl)
      rw [List.takeWhile_cons, isRadixDigit_ten, this]
      rfl
  simp [parseInt, radixAndRest_of_head_ne _ h48, htw]

/-- C4, as stated, fails: `13abc`, `20 years` and `13.9` are not decimal integer
numerals, and the age check accepts each of them, because `parseInt` reads the leading
numeral and ignores what follows it. -/
theorem ageFieldCheck_accepts_trailing_text :
    (js "13abc" ≠ [] ∧ isDecimalNumeral (js "13abc") = false ∧
      ageFieldCheck (js "13abc") = true) ∧
    (js "20 years" ≠ [] ∧ isDecimalNumeral (js "20 years") = false ∧
      ageFieldCheck (js "20 years") = true) ∧
    (js "13.9" ≠ [] ∧ isDecimalNumeral (js "13.9") = false ∧
      ageFieldCheck (js "13.9") = true) := by
  decide

/-- A non-empty string that, after its leading whitespace and one optional sign, does
not start with a decimal digit is invalid for the age check. -/
theorem ageFieldCheck_rejects_non_numeric (v : JSString) (hv : v ≠ [])
    (h : ∀ c, (afterSign v).head? = some c → isDigit c = false) :
    ageFieldCheck v = false := by
  simp [ageFieldCheck, hv, validateAge, parseInt_eq_none v h]

theorem radixValue_eq_numeralValue (R : Nat) (Z : JSString) :
    radixValue R Z = numeralValue R Z := by
  unfold radixValue numeralValue
  induction Z using List.reverseRecOn with
  | nil => simp
  | append_singleton l a ih =>
    rw [List.foldl_append, ih]
    simp only [List.foldl_cons, List.foldl_nil, List.map_append, List.map_cons, List.map_nil,
      List.reverse_append, List.reverse_cons, List.reverse_nil, List.nil_append,
      List.singleton_append, Nat.ofDigits_cons]
    rw [Nat.mul_comm, Nat.add_comm]

theorem takeWhile_append_stop (p : Nat → Bool) (l1 l2 : JSString)
    (h1 : ∀ c ∈ l1, p c = true) (h2 : ∀ c, l2.head? = some c → p c = false) :
    (l1 ++ l2).takeWhile p = l1 := by
  rw [List.takeWhile_append_of_pos h1]
  cases l2 with
  | nil => simp
  | cons c t => simp [List.takeWhile_cons, h2 c rfl]

theorem head_dropWhile_stop (p : Nat → Bool) (l : JSString) :
    ∀ c, (l.dropWhile p).head? = some c → p c = false := by
  intro c hc
  have := List.head?_dropWhile_not p l
  rw [hc] at this
  simpa using this

/-- The two outcomes of `radixAndRest`. -/
theorem radixAndRest_cases (B : JSString) :
    (∃ x t, B = 48 :: x :: t ∧ (x = 120 ∨ x = 88) ∧ radixAndRest B = (16, t)) ∨
      radixAndRest B = (10, B) := by
  unfold radixAndRest
  split
  · exact Or.inl ⟨120, _, rfl, Or.inl rfl, rfl⟩
  · exact Or.inl ⟨88, _, rfl, Or.inr rfl, rfl⟩
  · exact Or.inr rfl

/-- The age check in terms of the pieces of `parseInt`: no minus sign, and the digits
read have a value from 13 to 120. -/
theorem ageFieldCheck_iff_parts (v : JSString) (hv : v ≠ []) :
    ageFieldCheck v = true ↔
      (v.dropWhile isWhiteSpace).head? ≠ some 45 ∧
      13 ≤ radixValue (radixAndRest (afterSign v)).1
        ((radixAndRest (afterSign v)).2.takeWhile (isRadixDigit (radixAndRest (afterSign v)).1)) ∧
      radixValue (radixAndRest (afterSign v)).1
        ((radixAndRest (afterSign v)).2.takeWhile (isRadixDigit (radixAndRest (afterSign v)).1))
          ≤ 120 := by
  simp only [ageFieldCheck, hv, decide_False, Bool.false_or, validateAge, parseInt]
  generalize radixAndRest (afterSign v) = RS
  generalize hZ : RS.2.takeWhile (isRadixDigit RS.1) = Z
  by_cases hnil : Z = []
  · subst hnil
    simp [radixValue]
  · simp only [hnil, if_false]
    by_cases h45 : (v.dropWhile isWhiteSpace).head? = some 45
    · simp only [h45, if_true, ne_eq, not_true_eq_false, false_and, iff_false]
      simp only [Bool.and_eq_true, decide_eq_true_eq, not_and]
      intro h
      omega
    · simp only [h45, if_false, ne_eq, not_false_eq_true, true_and, Bool.and_eq_true,
        decide_eq_true_eq, one_mul]
      omega

theorem numeralValue_nil (R : Nat) : numeralValue R [] = 0 := by
  simp [numeralValue]

/-- The string after whitespace and an optional `+`, when what follows starts with a
digit. -/
theorem afterSign_of_shape (ws body v : JSString) (c0 : Nat) (t : JSString)
    (hws : ∀ c ∈ ws, isWhiteSpace c = true) (hb : body = c0 :: t) (hc0 : isDigit c0 = true)
    (hv : v = ws ++ body ∨ v = ws ++ 43 :: body) :
    (v.dropWhile isWhiteSpace).head? ≠ some 45 ∧ afterSign v = body := by
  have hnws : isWhiteSpace c0 = false := not_isWhiteSpace_of_isDigit c0 hc0
  have hc := (isDigit_iff c0).mp hc0
  have h43 : isWhiteSpace 43 = false := by decide
  rcases hv with hv | hv
  · have hD : v.dropWhile isWhiteSpace = c0 :: t := by
      rw [hv, List.dropWhile_append_of_pos hws, hb, List.dropWhile_cons, hnws]
      rfl
    unfold afterSign
    simp only [hD, List.head?_cons, Option.some.injEq, hb, ne_eq]
    refine ⟨by omega, ?_⟩
    rw [if_neg (by omega)]
  · have hD : v.dropWhile isWhiteSpace = 43 :: body := by
      rw [hv, List.dropWhile_append_of_pos hws, List.dropWhile_cons, h43]
      rfl
    unfold afterSign
    simp only [hD, List.head?_cons, Option.some.injEq, ne_eq]
    refine ⟨by decide, ?_⟩
    simp

/-- The string is its leading whitespace, an optional `+`, and what `afterSign` leaves,
unless it has a minus sign. -/
theorem shape_of_afterSign (v : JSString) (h45 : (v.dropWhile isWhiteSpace).head? ≠ some 45) :
    ∃ ws, (∀ c ∈ ws, isWhiteSpace c = true) ∧
      (v = ws ++ afterSign v ∨ v = ws ++ 43 :: afterSign v) := by
  refine ⟨v.takeWhile isWhiteSpace, fun c hc => List.mem_takeWhile_imp hc, ?_⟩
  have hsplit := List.takeWhile_append_dropWhile isWhiteSpace v
  unfold afterSign
  cases hD : v.dropWhile isWhiteSpace with
  | nil =>
    left
    rw [hD] at hsplit
    simpa using hsplit.symm
  | cons c t =>
    rw [hD] at hsplit h45
    simp only [List.head?_cons, Option.some.injEq, ne_eq] at h45
    simp only [List.head?_cons, Option.some.injEq]
    by_cases h43 : c = 43
    · subst h43
      right
      simpa using hsplit.symm
    · left
      rw [if_neg (by tauto)]
      exact hsplit.symm

/-- C4, amended: a non-empty string is valid for the age check exactly when, after
leading whitespace and an optional `+`, it starts with a run of decimal digits, not
continued by a further digit, whose value is from 13 to 120, or with `0x`/`0X` and a run
of hexadecimal digits, not continued by a further one, whose value is from 13 to 120.
Every other non-empty string, malformed or not, is invalid; the check is a total
function, so it never throws. -/
theorem ageFieldCheck_iff_leading_numeral (v : JSString) (hv : v ≠ []) :
    ageFieldCheck v = true ↔
      ∃ ws body, (∀ c ∈ ws, isWhiteSpace c = true) ∧ (v = ws ++ body ∨ v = ws ++ 43 :: body) ∧
        ((∃ ds rest, body = ds ++ rest ∧ (∀ c ∈ ds, isDigit c = true) ∧
            (∀ c, rest.head? = some c → isDigit c = false) ∧
            13 ≤ numeralValue 10 ds ∧ numeralValue 10 ds ≤ 120) ∨
         (∃ x hs rest, body = 48 :: x :: (hs ++ rest) ∧ (x = 120 ∨ x = 88) ∧
            (∀ c ∈ hs, isRadixDigit 16 c = true) ∧
            (∀ c, rest.head? = some c → isRadixDigit 16 c = false) ∧
            13 ≤ numeralValue 16 hs ∧ numeralValue 16 hs ≤ 120)) := by
  rw [ageFieldCheck_iff_parts v hv]
  constructor
  · rintro ⟨h45, hlo, hhi⟩
    obtain ⟨ws, hws, hshape⟩ := shape_of_afterSign v h45
    refine ⟨ws, afterSign v, hws, hshape, ?_⟩
    rcases radixAndRest_cases (afterSign v) with ⟨x, t, hB, hx, hRS⟩ | hRS
    · right
      rw [hRS] at hlo hhi
      simp only at hlo hhi
      rw [radixValue_eq_numeralValue] at hlo hhi
      exact ⟨x, t.takeWhile (isRadixDigit 16), t.dropWhile (isRadixDigit 16),
        by rw [List.takeWhile_append_dropWhile]; exact hB, hx,
        fun c hc => List.mem_takeWhile_imp hc, head_dropWhile_stop _ _, hlo, hhi⟩
    · left
      rw [hRS] at hlo hhi
      simp only at hlo hhi
      rw [radixValue_eq_numeralValue] at hlo hhi
      refine ⟨(afterSign v).takeWhile (isRadixDigit 10), (afterSign v).dropWhile (isRadixDigit 10),
        by rw [List.takeWhile_append_dropWhile], ?_, ?_, hlo, hhi⟩
      · intro c hc
        rw [← isRadixDigit_ten]
        exact List.mem_takeWhile_imp hc
      · intro c hc
        rw [← isRadixDigit_ten]
        exact head_dropWhile_stop _ _ c hc
  · rintro ⟨ws, body, hws, hshape, hbody⟩
    rcases hbody with ⟨ds, rest, hb, hds, hrest, hlo, hhi⟩ | ⟨x, hs, rest, hb, hx, hhs, hrest, hlo, hhi⟩
    · cases ds with
      | nil =>
        rw [numeralValue_nil] at hlo
        omega
      | cons c0 ds1 =>
        have hc0 : isDigit c0 = true := hds c0 (List.mem_cons_self _ _)
        obtain ⟨h45, hB⟩ := afterSign_of_shape ws body v c0 (ds1 ++ rest) hws
          (by rw [hb]; rfl) hc0 hshape
        have hRS : radixAndRest body = (10, body) := by
          rcases radixAndRest_cases body with ⟨x, t, hB2, hx, _⟩ | h
          · exfalso
            rw [hb] at hB2
            simp only [List.cons_append, List.cons.injEq] at hB2
            obtain ⟨h48, htail⟩ := hB2
            cases ds1 with
            | nil =>
              subst h48
              have : numeralValue 10 [48] = 0 := by decide
              omega
            | cons d ds2 =>
              simp only [List.cons_append, List.cons.injEq] at htail
              have hd := hds d (by simp)
              rw [htail.1] at hd
              rcases hx with rfl | rfl <;> exact absurd hd (by decide)
          · exact h
        have hZ : body.takeWhile (isRadixDigit 10) = c0 :: ds1 := by
          rw [hb]
          apply takeWhile_append_stop
          · intro c hc
            rw [isRadixDigit_ten]
            exact hds c hc
          · intro c hc
            rw [isRadixDigit_ten]
            exact hrest c hc
        rw [hB, hRS]
        simp only [hZ, radixValue_eq_numeralValue]
        exact ⟨h45, hlo, hhi⟩
    · obtain ⟨h45, hB⟩ := afterSign_of_shape ws body v 48 (x :: (hs ++ rest)) hws hb
        (by decide) hshape
      have hRS : radixAndRest body = (16, hs ++ rest) := by
        rw [hb]
        rcases hx with rfl | rfl <;> rfl
      have hZ : (hs ++ rest).takeWhile (isRadixDigit 16) = hs :=
        takeWhile_append_stop _ _ _ hhs hrest
      rw [hB, hRS]
      simp only [hZ, radixValue_eq_numeralValue]
      exact ⟨h45, hlo, hhi⟩

theorem ageFieldCheck_iff_leading_numeral_witness :
    js "12abc" ≠ [] ∧
    (ageFieldCheck (js "12abc") = true ↔
      ∃ ws body, (∀ c ∈ ws, isWhiteSpace c = true) ∧
        (js "12abc" = ws ++ body ∨ js "12abc" = ws ++ 43 :: body) ∧
        ((∃ ds rest, body = ds ++ rest ∧ (∀ c ∈ ds, isDigit c = true) ∧
            (∀ c, rest.head? = some c → isDigit c = false) ∧
            13 ≤ numeralValue 10 ds ∧ numeralValue 10 ds ≤ 120) ∨
         (∃ x hs rest, body = 48 :: x :: (hs ++ rest) ∧ (x = 120 ∨ x = 88) ∧
            (∀ c ∈ hs, isRadixDigit 16 c = true) ∧
            (∀ c, rest.head? = some c → isRadixDigit 16 c = false) ∧
            13 ≤ numeralValue 16 hs ∧ numeralValue 16 hs ≤ 120))) :=
  ⟨by decide, ageFieldCheck_iff_leading_numeral (js "12abc") (by decide)⟩

/-- Malformed inputs whose leading numeral is outside 13 to 120 are invalid, and one
with a hexadecimal numeral inside is valid. -/
theorem ageFieldCheck_malformed_examples :
    ageFieldCheck (js "abc") = false ∧ ageFieldCheck (js "12abc") = false ∧
      ageFieldCheck (js "5 years") = false ∧ ageFieldCheck (js "121.5") = false ∧
      ageFieldCheck (js "-13") = false ∧ ageFieldCheck (js " +13abc") = true ∧
      ageFieldCheck (js "0x1F") = true := by
  decide

/-- C5: the age check accepts the empty string; it accepts the decimal numeral of an
integer `n` exactly when `13 ≤ n ≤ 120`; `13` and `120` are valid, `12` and `121` are
invalid. -/
theorem ageFieldCheck_numeral :
    ageFieldCheck [] = true ∧
    (∀ n : Int, ageFieldCheck (numeral n) = true ↔ 13 ≤ n ∧ n ≤ 120) ∧
    (numeral 13 = js "13" ∧ ageFieldCheck (js "13") = true) ∧
    (numeral 120 = js "120" ∧ ageFieldCheck (js "120") = true) ∧
    (numeral 12 = js "12" ∧ ageFieldCheck (js "12") = false) ∧
    (numeral 121 = js "121" ∧ ageFieldCheck (js "121") = false) := by
  refine ⟨by decide, fun n => ?_, ⟨?_, by decide⟩, ⟨?_, by decide⟩, ⟨?_, by decide⟩,
    ⟨?_, by decide⟩⟩
  · simp [ageFieldCheck, numeral_ne_nil, validateAge, parseInt_numeral]
  · show decimal 13 = js "13"
    norm_num [decimal]
    decide
  · show decimal 120 = js "120"
    norm_num [decimal]
    decide
  · show decimal 12 = js "12"
    norm_num [decimal]
    decide
  · show decimal 121 = js "121"
    norm_num [decimal]
    decide

/-! ## One call of `validateField` -/

theorem updateFieldValidation_eq (page : Page) (i : Nat) (field : Input) (isValid : Bool)
    (errorMessage errorId : String) :
    updateFieldValidation page i field isValid errorMessage errorId =
      setErrorText { page with inputs := page.inputs.set i (marked field isValid) } errorId
        (shownText field errorMessage) := by
  unfold updateFieldValidation marked shownText Input.blank
  split <;> rfl

theorem marked_data (field : Input) (v : Bool) : (marked field v).data = field.data := by
  unfold marked
  split <;> rfl

theorem marked_name (field : Input) (v : Bool) : (marked field v).name = field.name := by
  unfold marked
  split <;> rfl

theorem marked_congr (f g : Input) (v : Bool) (h : f.data = g.data) :
    marked f v = marked g v := by
  cases f
  cases g
  simp only [Input.data, Prod.mk.injEq] at h
  obtain ⟨rfl, rfl, rfl, rfl⟩ := h
  unfold marked Input.blank
  split <;> rfl

theorem shownText_congr (f g : Input) (msg : String) (h : f.data = g.data) :
    shownText f msg = shownText g msg := by
  cases f
  cases g
  simp only [Input.data, Prod.mk.injEq] at h
  obtain ⟨rfl, rfl, rfl, rfl⟩ := h
  rfl

/-- The verdict of the switch depends on the field's own data and, through
`passwordValue`, on the password field. -/
theorem fieldVerdict_congr (p q : Page) (f g : Input) (hpq : passwordValue p = passwordValue q)
    (h : f.data = g.data) : fieldVerdict p f = fieldVerdict q g := by
  cases f
  cases g
  simp only [Input.data, Prod.mk.injEq] at h
  obtain ⟨rfl, rfl, rfl, rfl⟩ := h
  unfold fieldVerdict
  rw [hpq]

/-- Away from `confirmPassword`, the verdict depends on the field's own data only. -/
theorem fieldVerdict_congr_own (p q : Page) (f g : Input) (hn : f.name ≠ "confirmPassword")
    (h : f.data = g.data) : fieldVerdict p f = fieldVerdict q g := by
  cases f
  cases g
  simp only [Input.data, Prod.mk.injEq] at h
  obtain ⟨rfl, rfl, rfl, rfl⟩ := h
  simp only at hn
  unfold fieldVerdict
  simp only [hn, if_false]

/-- The error message is empty exactly when the field is valid. -/
theorem fieldVerdict_msg (page : Page) (f : Input) (v : Bool) (msg : String)
    (h : fieldVerdict page f = some (v, msg)) : msg = "" ↔ v = true := by
  unfold fieldVerdict at h
  split_ifs at h
  all_goals first
    | (cases hp : passwordValue page <;> rw [hp] at h <;> simp only at h
       · cases h
       · simp only [Option.some.injEq, Prod.mk.injEq] at h
         obtain ⟨rfl, rfl⟩ := h
         split <;> simp_all)
    | (simp only [Option.some.injEq, Prod.mk.injEq] at h
       obtain ⟨rfl, rfl⟩ := h
       first
         | (split <;> simp_all)
         | simp)

theorem validateField_eq (page : Page) (i : Nat) (f : Input) (v : Bool) (msg : String)
    (hf : page.inputs[i]? = some f) (hv : fieldVerdict page f = some (v, msg))
    (he : (page.errorText (f.name ++ "Error")).isSome = true) :
    validateField page i = some (afterField page i f v msg, v) := by
  unfold validateField
  rw [hf]
  simp only [hv, updateFieldValidation_eq, setErrorText]
  obtain ⟨t, ht⟩ := Option.isSome_iff_exists.mp he
  simp only [ht]
  rfl

theorem fieldVerdict_isSome (page : Page) (f : Input)
    (hp : f.name = "confirmPassword" → (passwordValue page).isSome = true) :
    ∃ v msg, fieldVerdict page f = some (v, msg) := by
  unfold fieldVerdict
  split_ifs with h1 h2 h3 h4 h5 h6 h7
  all_goals first
    | exact ⟨_, _, rfl⟩
    | (obtain ⟨t, ht⟩ := Option.isSome_iff_exists.mp (hp h4)
       rw [ht]
       exact ⟨_, _, rfl⟩)

theorem passwordValue_congr (p q : Page)
    (h : p.inputs.map Input.data = q.inputs.map Input.data) :
    passwordValue p = passwordValue q := by
  unfold passwordValue getInputById
  generalize p.inputs = l1 at h
  generalize q.inputs = l2 at h
  induction l1 generalizing l2 with
  | nil =>
    cases l2 with
    | nil => rfl
    | cons b l2 => simp at h
  | cons a l1 ih =>
    cases l2 with
    | nil => simp at h
    | cons b l2 =>
      simp only [List.map_cons, List.cons.injEq] at h
      obtain ⟨hab, hl⟩ := h
      have hid : a.id = b.id := congrArg (fun d => d.1) hab
      have hval : a.value = b.value := congrArg (fun d => d.2.2.1) hab
      simp only [List.find?_cons, hid]
      cases hb : (b.id == "password")
      · exact ih l2 hl
      · simp [hval]

theorem afterField_data (page : Page) (i : Nat) (f : Input) (v : Bool) (msg : String)
    (hf : page.inputs[i]? = some f) :
    (afterField page i f v msg).inputs.map Input.data = page.inputs.map Input.data := by
  simp only [afterField, List.map_set, marked_data]
  apply List.ext_getElem?
  intro j
  by_cases hij : i = j
  · subst hij
    rw [List.getElem?_set_self', List.getElem?_map, hf]
    simp
  · rw [List.getElem?_set_ne hij]

theorem names_of_data (l1 l2 : List Input) (h : l1.map Input.data = l2.map Input.data) :
    l1.map (fun inp => inp.name) = l2.map (fun inp => inp.name) := by
  have := congrArg (List.map (fun d : String × String × JSString × Bool => d.2.1)) h
  simpa [List.map_map, Function.comp_def, Input.data] using this

theorem afterField_complete (page : Page) (i : Nat) (f : Input) (v : Bool) (msg : String)
    (hf : page.inputs[i]? = some f) (hc : page.Complete) :
    (afterField page i f v msg).Complete := by
  have hd := afterField_data page i f v msg hf
  have hpw := passwordValue_congr _ _ hd
  have hfm : f ∈ page.inputs := List.getElem?_mem hf
  constructor
  · intro inp hinp
    have hin : inp ∈ page.inputs ∨ inp = marked f v := List.mem_or_eq_of_mem_set hinp
    have hname : ∃ g ∈ page.inputs, inp.name = g.name := by
      rcases hin with h | h
      · exact ⟨inp, h, rfl⟩
      · exact ⟨f, hfm, by rw [h, marked_name]⟩
    obtain ⟨g, hg, hng⟩ := hname
    simp only [afterField]
    split
    · rfl
    · rw [hng]
      exact hc.1 g hg
  · intro inp hinp hn
    have hin : inp ∈ page.inputs ∨ inp = marked f v := List.mem_or_eq_of_mem_set hinp
    rw [hpw]
    rcases hin with h | h
    · exact hc.2 inp h hn
    · exact hc.2 f hfm (by rw [← hn, h, marked_name])

theorem afterField_distinct (page : Page) (i : Nat) (f : Input) (v : Bool) (msg : String)
    (hf : page.inputs[i]? = some f) (hn : page.DistinctNames) :
    (afterField page i f v msg).DistinctNames := by
  unfold Page.DistinctNames at hn ⊢
  rw [names_of_data _ _ (afterField_data page i f v msg hf)]
  exact hn

theorem getElem?_of_data (l1 l2 : List Input) (h : l1.map Input.data = l2.map Input.data)
    (j : Nat) (f : Input) (hf : l1[j]? = some f) :
    ∃ g, l2[j]? = some g ∧ g.data = f.data := by
  have := congrArg (fun l => l[j]?) h
  simp only [List.getElem?_map, hf, Option.map_some'] at this
  cases hg : l2[j]? with
  | none => simp [hg] at this
  | some g =>
    simp only [hg, Option.map_some', Option.some.injEq] at this
    exact ⟨g, rfl, this.symm⟩

theorem outcome_congr (p q : Page) (h : p.inputs.map Input.data = q.inputs.map Input.data)
    (j : Nat) : outcome p j = outcome q j := by
  unfold outcome
  cases hf : p.inputs[j]? with
  | none =>
    cases hg : q.inputs[j]? with
    | none => rfl
    | some g =>
      obtain ⟨f, hf', _⟩ := getElem?_of_data _ _ h.symm j g hg
      rw [hf] at hf'
      cases hf'
  | some f =>
    obtain ⟨g, hg, hgf⟩ := getElem?_of_data _ _ h j f hf
    simp only [hg, Option.some_bind]
    rw [fieldVerdict_congr p q f g (passwordValue_congr p q h) hgf.symm]
    cases fieldVerdict q g with
    | none => rfl
    | some r =>
      simp only [Option.map_some', marked_congr f g r.1 hgf.symm,
        shownText_congr f g r.2 hgf.symm]

/-- On a complete page `validateField` returns, and its result is `afterField`. -/
theorem validateField_step (page : Page) (hc : page.Complete) (i : Nat) (f : Input)
    (hf : page.inputs[i]? = some f) :
    ∃ v msg, fieldVerdict page f = some (v, msg) ∧
      outcome page i = some (marked f v, shownText f msg, v) ∧
      validateField page i = some (afterField page i f v msg, v) := by
  have hfm : f ∈ page.inputs := List.getElem?_mem hf
  obtain ⟨v, msg, hv⟩ := fieldVerdict_isSome page f (hc.2 f hfm)
  refine ⟨v, msg, hv, ?_, validateField_eq page i f v msg hf hv (hc.1 f hfm)⟩
  simp [outcome, hf, hv]

theorem name_ne_of_distinct (page : Page) (hn : page.DistinctNames) (i j : Nat) (f g : Input)
    (hij : i ≠ j) (hf : page.inputs[i]? = some f) (hg : page.inputs[j]? = some g) :
    f.name ++ "Error" ≠ g.name ++ "Error" := by
  intro heq
  have hname : f.name = g.name := by
    apply String.ext
    have := congrArg String.data heq
    simp only [String.data_append] at this
    exact List.append_cancel_right this
  unfold Page.DistinctNames at hn
  rw [List.nodup_iff_getElem?_ne_getElem?] at hn
  have hi : (page.inputs.map (fun inp => inp.name))[i]? = some f.name := by
    simp [List.getElem?_map, hf]
  have hj : (page.inputs.map (fun inp => inp.name))[j]? = some g.name := by
    simp [List.getElem?_map, hg]
  have hjl : j < (page.inputs.map (fun inp => inp.name)).length := by
    by_contra hlt
    rw [List.getElem?_eq_none (by omega)] at hj
    cases hj
  have hil : i < (page.inputs.map (fun inp => inp.name)).length := by
    by_contra hlt
    rw [List.getElem?_eq_none (by omega)] at hi
    cases hi
  rcases Nat.lt_or_gt_of_ne hij with h | h
  · exact hn i j h hjl (by rw [hi, hj, hname])
  · exact hn j i h hil (by rw [hi, hj, hname])

/-! ## The loop of `validateForm` -/

theorem afterField_length (page : Page) (i : Nat) (f : Input) (v : Bool) (msg : String) :
    (afterField page i f v msg).inputs.length = page.inputs.length := by
  simp [afterField]

/-- The loop of `validateForm` over any list of valid indices of a complete page: it
returns, and this is what it leaves. -/
theorem validateFields_spec (is : List Nat) :
    ∀ (page : Page) (b : Bool), page.Complete → (∀ i ∈ is, i < page.inputs.length) →
      ∃ page1, validateFields is page b =
          some (page1, b && is.all (fun i => (outcome page i).map (fun o => o.2.2) == some true)) ∧
        page1.inputs.map Input.data = page.inputs.map Input.data ∧ page1.Complete ∧
        (∀ j, j ∉ is → page1.inputs[j]? = page.inputs[j]?) ∧
        (∀ j ∈ is, page1.inputs[j]? = (outcome page j).map (fun o => o.1)) ∧
        (∀ id, (∀ j ∈ is, ∀ f, page.inputs[j]? = some f → id ≠ f.name ++ "Error") →
          page1.errorText id = page.errorText id) ∧
        (page.DistinctNames → ∀ j ∈ is, ∀ f, page.inputs[j]? = some f →
          page1.errorText (f.name ++ "Error") = (outcome page j).map (fun o => o.2.1)) := by
  induction is with
  | nil =>
    intro page b hc _
    exact ⟨page, by simp [validateFields], rfl, hc, fun _ _ => rfl, by simp, fun _ _ => rfl,
      by simp⟩
  | cons i rest ih =>
    intro page b hc hlt
    have hi : i < page.inputs.length := hlt i (List.mem_cons_self _ _)
    obtain ⟨f, hf⟩ : ∃ f, page.inputs[i]? = some f := ⟨_, List.getElem?_eq_getElem hi⟩
    obtain ⟨v, msg, hv, ho, hstep⟩ := validateField_step page hc i f hf
    have hd1 := afterField_data page i f v msg hf
    have hc1 := afterField_complete page i f v msg hf hc
    have hlt1 : ∀ j ∈ rest, j < (afterField page i f v msg).inputs.length := by
      intro j hj
      rw [afterField_length]
      exact hlt j (List.mem_cons_of_mem _ hj)
    obtain ⟨page1, hrun, hdata, hcomp, hout, hin, hframe, hdist⟩ :=
      ih (afterField page i f v msg) (if !v then false else b) hc1 hlt1
    have hoc : ∀ j, outcome (afterField page i f v msg) j = outcome page j :=
      fun j => outcome_congr _ _ hd1 j
    have hframe1 : ∀ id, (∀ j ∈ rest, ∀ g, page.inputs[j]? = some g → id ≠ g.name ++ "Error") →
        page1.errorText id = (afterField page i f v msg).errorText id := by
      intro id hid
      apply hframe
      intro j hj g1 hg1
      obtain ⟨g, hg, hgd⟩ := getElem?_of_data _ _ hd1 j g1 hg1
      have hname : g.name = g1.name := congrArg (fun d => d.2.1) hgd
      rw [← hname]
      exact hid j hj g hg
    refine ⟨page1, ?_, hdata.trans hd1, hcomp, ?_, ?_, ?_, ?_⟩
    · simp only [validateFields, hstep, hrun, hoc, ho, List.all_cons, Option.map_some']
      cases v <;> cases b <;> simp
    · intro j hj
      have hji : i ≠ j := fun h => hj (h ▸ List.mem_cons_self _ _)
      have hjr : j ∉ rest := fun h => hj (List.mem_cons_of_mem _ h)
      rw [hout j hjr]
      simp only [afterField]
      rw [List.getElem?_set_ne hji]
    · intro j hj
      by_cases hjr : j ∈ rest
      · rw [hin j hjr, hoc]
      · have hji : j = i := by
          rcases List.mem_cons.mp hj with h | h
          · exact h
          · exact absurd h hjr
        subst hji
        rw [hout j hjr, ho]
        simp only [afterField, Option.map_some']
        rw [List.getElem?_set_self hi]
    · intro id hid
      rw [hframe1 id (fun j hj g hg => hid j (List.mem_cons_of_mem _ hj) g hg)]
      simp only [afterField]
      rw [if_neg (hid i (List.mem_cons_self _ _) f hf)]
    · intro hn j hj g hg
      by_cases hjr : j ∈ rest
      · obtain ⟨g1, hg1, hgd⟩ := getElem?_of_data _ _ hd1.symm j g hg
        have hname : g1.name = g.name := congrArg (fun d => d.2.1) hgd
        have := hdist (afterField_distinct page i f v msg hf hn) j hjr g1 hg1
        rw [hname, hoc] at this
        exact this
      · have hji : j = i := by
          rcases List.mem_cons.mp hj with h | h
          · exact h
          · exact absurd h hjr
        subst hji
        rw [hf] at hg
        cases hg
        rw [hframe1, ho]
        · simp [afterField]
        · intro k hk g hg
          have hkj : j ≠ k := fun h => hjr (h ▸ hk)
          exact name_ne_of_distinct page hn j k f g hkj hf hg

/-! ## Claims about `validateForm` -/

/-- On a complete page a call of `validateField` returns; `outcome` tells the flag, the
input it leaves and the text of the input's error element. -/
theorem validateField_outcome (page : Page) (hc : page.Complete) (i : Nat) (f : Input)
    (hf : page.inputs[i]? = some f) :
    ∃ q v msg, validateField page i = some (q, v) ∧ fieldVerdict page f = some (v, msg) ∧
      outcome page i = some (marked f v, shownText f msg, v) ∧
      q.inputs[i]? = some (marked f v) ∧
      q.errorText (f.name ++ "Error") = some (shownText f msg) := by
  obtain ⟨v, msg, hv, ho, hstep⟩ := validateField_step page hc i f hf
  have hi : i < page.inputs.length := by
    by_contra hlt
    rw [List.getElem?_eq_none (by omega)] at hf
    cases hf
  refine ⟨afterField page i f v msg, v, msg, hstep, hv, ho, ?_, ?_⟩
  · simp only [afterField]
    rw [List.getElem?_set_self hi]
  · simp [afterField]

/-- C7: on every page that has the elements the code looks up, `validateForm` returns;
it returns true exactly when `validateField` returns true for every field of the form;
and every field, also one that comes after a field that failed, is left as
`validateField` leaves it. -/
theorem validateForm_runs_every_field (page : Page) (hc : page.Complete) :
    ∃ page1 b, validateForm page = some (page1, b) ∧
      (b = true ↔
        ∀ i, i < page.inputs.length → (validateField page i).map Prod.snd = some true) ∧
      (∀ i, i < page.inputs.length →
        ∃ q r, validateField page i = some (q, r) ∧ page1.inputs[i]? = q.inputs[i]?) := by
  obtain ⟨page1, hrun, _, _, _, hin, _, _⟩ :=
    validateFields_spec (List.range page.inputs.length) page true hc
      (fun i hi => List.mem_range.mp hi)
  refine ⟨page1, _, hrun, ?_, ?_⟩
  · simp only [Bool.true_and, List.all_eq_true, List.mem_range, beq_iff_eq]
    constructor
    · intro h i hi
      obtain ⟨q, v, msg, hq, _, ho, _, _⟩ :=
        validateField_outcome page hc i _ (List.getElem?_eq_getElem hi)
      have := h i hi
      rw [ho] at this
      rw [hq]
      exact this
    · intro h i hi
      obtain ⟨q, v, msg, hq, _, ho, _, _⟩ :=
        validateField_outcome page hc i _ (List.getElem?_eq_getElem hi)
      have := h i hi
      rw [hq] at this
      rw [ho]
      exact this
  · intro i hi
    obtain ⟨q, v, msg, hq, _, ho, hqi, _⟩ :=
      validateField_outcome page hc i _ (List.getElem?_eq_getElem hi)
    refine ⟨q, v, hq, ?_⟩
    rw [hin i (List.mem_range.mpr hi), ho, hqi]
    rfl

theorem validateForm_runs_every_field_witness :
    ∃ page1 b, validateForm (signupPage (js "Ann Lee") (js "ann@site.org") (js "Abc12345") (js "Abc12346") [] (js "30") true) = some (page1, b) ∧
      (b = true ↔
        ∀ i, i < (signupPage (js "Ann Lee") (js "ann@site.org") (js "Abc12345") (js "Abc12346") [] (js "30") true).inputs.length →
          (validateField (signupPage (js "Ann Lee") (js "ann@site.org") (js "Abc12345") (js "Abc12346") [] (js "30") true) i).map Prod.snd = some true) ∧
      (∀ i, i < (signupPage (js "Ann Lee") (js "ann@site.org") (js "Abc12345") (js "Abc12346") [] (js "30") true).inputs.length →
        ∃ q r, validateField (signupPage (js "Ann Lee") (js "ann@site.org") (js "Abc12345") (js "Abc12346") [] (js "30") true) i = some (q, r) ∧
          page1.inputs[i]? = q.inputs[i]?) :=
  validateForm_runs_every_field (signupPage (js "Ann Lee") (js "ann@site.org") (js "Abc12345") (js "Abc12346") [] (js "30") true) (by decide)

/-- C8, as stated, fails: on the sign-up form with every text field empty and the terms
accepted, `validateField` returns false for the `fullName` field and `validateForm`
returns false, yet no field ends with the `invalid` mark and every error text is empty. -/
theorem validateForm_blank_fields_unmarked :
    (validateField (signupPage [] [] [] [] [] [] true) 0).map Prod.snd = some false ∧
    (validateForm (signupPage [] [] [] [] [] [] true)).map
        (fun r => (r.2, r.1.inputs.map (fun inp => inp.hasInvalid),
          r.1.inputs.map (fun inp => r.1.errorText (inp.name ++ "Error")))) =
      some (false, [false, false, false, false, false, false, false],
        [some "", some "", some "", some "", some "", some "", some ""]) := by
  decide

/-- C8, amended: after `validateForm` on a page with the looked-up elements and pairwise
different field names, a field has non-empty error text and the `invalid` mark exactly
when `validateField` returned false for it and the field is not blank (its trimmed value
is non-empty, or it is the `terms` checkbox); error text and mark go together, and a
field that validated successfully has neither. -/
theorem validateForm_error_text (page : Page) (hc : page.Complete) (hn : page.DistinctNames) :
    ∃ page1 b, validateForm page = some (page1, b) ∧
      ∀ i f, page.inputs[i]? = some f →
        ∃ f1 t r, page1.inputs[i]? = some f1 ∧
          page1.errorText (f.name ++ "Error") = some t ∧
          (validateField page i).map Prod.snd = some r ∧
          ((t ≠ "" ∧ f1.hasInvalid = true) ↔
            (r = false ∧ ¬ (trim f.value = [] ∧ f.name ≠ "terms"))) ∧
          (t ≠ "" ↔ f1.hasInvalid = true) ∧
          (r = true → t = "" ∧ f1.hasInvalid = false) := by
  obtain ⟨page1, hrun, _, _, _, hin, _, hdist⟩ :=
    validateFields_spec (List.range page.inputs.length) page true hc
      (fun i hi => List.mem_range.mp hi)
  refine ⟨page1, _, hrun, ?_⟩
  intro i f hf
  have hi : i < page.inputs.length := by
    by_contra hlt
    rw [List.getElem?_eq_none (by omega)] at hf
    cases hf
  obtain ⟨q, v, msg, hq, hv, ho, _, _⟩ := validateField_outcome page hc i f hf
  have hmsg := fieldVerdict_msg page f v msg hv
  refine ⟨marked f v, shownText f msg, v, ?_, ?_, ?_, ?_⟩
  · rw [hin i (List.mem_range.mpr hi), ho]
    rfl
  · rw [hdist hn i (List.mem_range.mpr hi) f hf, ho]
    rfl
  · rw [hq]
    rfl
  · unfold marked shownText Input.blank
    by_cases hb : trim f.value = [] ∧ f.name ≠ "terms"
    · simp only [if_pos hb]
      simp [hb]
    · simp only [if_neg hb]
      cases v <;> simp_all

theorem validateForm_error_text_witness :
    ∃ page1 b, validateForm (signupPage (js "Ann Lee") (js "ann@site.org") (js "Abc12345") (js "Abc12346") [] (js "30") true) = some (page1, b) ∧
      ∀ i f, (signupPage (js "Ann Lee") (js "ann@site.org") (js "Abc12345") (js "Abc12346") [] (js "30") true).inputs[i]? = some f →
        ∃ f1 t r, page1.inputs[i]? = some f1 ∧
          page1.errorText (f.name ++ "Error") = some t ∧
          (validateField (signupPage (js "Ann Lee") (js "ann@site.org") (js "Abc12345") (js "Abc12346") [] (js "30") true) i).map Prod.snd = some r ∧
          ((t ≠ "" ∧ f1.hasInvalid = true) ↔
            (r = false ∧ ¬ (trim f.value = [] ∧ f.name ≠ "terms"))) ∧
          (t ≠ "" ↔ f1.hasInvalid = true) ∧
          (r = true → t = "" ∧ f1.hasInvalid = false) :=
  validateForm_error_text (signupPage (js "Ann Lee") (js "ann@site.org") (js "Abc12345") (js "Abc12346") [] (js "30") true) (by decide) (by decide)

/-! ## Real-time validation -/

theorem lt_length_of_getElem? {α : Type} (l : List α) (i : Nat) (a : α) (h : l[i]? = some a) :
    i < l.length := by
  by_contra hlt
  rw [List.getElem?_eq_none (by omega)] at h
  cases h

/-- What `validateField` would show for an input, in terms of `outcome`. -/
theorem freshDisplay_eq (page : Page) (hc : page.Complete) (i : Nat) (f : Input)
    (hf : page.inputs[i]? = some f) :
    freshDisplay page i =
      (outcome page i).map (fun o => (o.1.hasValid, o.1.hasInvalid, some o.2.1)) := by
  obtain ⟨q, v, msg, hq, _, ho, hqi, hqe⟩ := validateField_outcome page hc i f hf
  simp only [freshDisplay, hq, Option.some_bind, display, hqi, Option.map_some', ho,
    marked_name, hqe]

theorem display_afterField_self (page : Page) (i : Nat) (f : Input) (v : Bool) (msg : String)
    (hf : page.inputs[i]? = some f) :
    display (afterField page i f v msg) i =
      some ((marked f v).hasValid, (marked f v).hasInvalid, some (shownText f msg)) := by
  have hi := lt_length_of_getElem? _ _ _ hf
  simp only [display, afterField]
  rw [List.getElem?_set_self hi]
  simp [marked_name]

theorem display_afterField_other (page : Page) (hn : page.DistinctNames) (i j : Nat)
    (f g : Input) (v : Bool) (msg : String) (hij : i ≠ j)
    (hf : page.inputs[i]? = some f) (hg : page.inputs[j]? = some g) :
    display (afterField page i f v msg) j = display page j := by
  simp only [display, afterField]
  rw [List.getElem?_set_ne hij, hg]
  simp only [Option.map_some', Option.some.injEq, Prod.mk.injEq, true_and]
  rw [if_neg (name_ne_of_distinct page hn j i g f (Ne.symm hij) hg hf)]

theorem applyEdit_names (page : Page) (e : FieldEvent) :
    (applyEdit page e).inputs.map (fun inp => (inp.id, inp.name)) =
      page.inputs.map (fun inp => (inp.id, inp.name)) := by
  apply List.ext_getElem?
  intro j
  simp only [applyEdit, List.getElem?_map, List.getElem?_modify]
  cases page.inputs[j]? with
  | none => rfl
  | some g =>
    by_cases h : e.target = j
    · simp [h]
    · simp [h]

theorem isSome_find_of_ids (l1 l2 : List Input) (x : String)
    (h : l1.map (fun inp => (inp.id, inp.name)) = l2.map (fun inp => (inp.id, inp.name))) :
    (l1.find? (fun inp => inp.id == x)).isSome = (l2.find? (fun inp => inp.id == x)).isSome := by
  induction l1 generalizing l2 with
  | nil =>
    cases l2 with
    | nil => rfl
    | cons b l2 => simp at h
  | cons a l1 ih =>
    cases l2 with
    | nil => simp at h
    | cons b l2 =>
      simp only [List.map_cons, List.cons.injEq, Prod.mk.injEq] at h
      obtain ⟨⟨hid, _⟩, hl⟩ := h
      simp only [List.find?_cons, hid]
      cases hb : (b.id == x)
      · exact ih l2 hl
      · rfl

theorem applyEdit_complete (page : Page) (e : FieldEvent) (hc : page.Complete) :
    (applyEdit page e).Complete := by
  have hnames := applyEdit_names page e
  have hname : ∀ inp ∈ (applyEdit page e).inputs, ∃ g ∈ page.inputs, g.name = inp.name := by
    intro inp hinp
    have h1 : (inp.id, inp.name) ∈
        (applyEdit page e).inputs.map (fun inp => (inp.id, inp.name)) :=
      List.mem_map_of_mem _ hinp
    rw [hnames] at h1
    obtain ⟨g, hg, hge⟩ := List.mem_map.mp h1
    exact ⟨g, hg, congrArg Prod.snd hge⟩
  have hpw : (passwordValue (applyEdit page e)).isSome = (passwordValue page).isSome := by
    simp only [passwordValue, getInputById, Option.isSome_map']
    exact isSome_find_of_ids _ _ _ hnames
  constructor
  · intro inp hinp
    obtain ⟨g, hg, hgn⟩ := hname inp hinp
    rw [← hgn]
    exact hc.1 g hg
  · intro inp hinp hcp
    obtain ⟨g, hg, hgn⟩ := hname inp hinp
    rw [hpw]
    exact hc.2 g hg (hgn.trans hcp)

theorem names_of_ids (l1 l2 : List Input)
    (h : l1.map (fun inp => (inp.id, inp.name)) = l2.map (fun inp => (inp.id, inp.name))) :
    l1.map (fun inp => inp.name) = l2.map (fun inp => inp.name) := by
  have := congrArg (List.map (fun d : String × String => d.2)) h
  simpa [List.map_map, Function.comp_def] using this

theorem applyEdit_distinct (page : Page) (e : FieldEvent) (hn : page.DistinctNames) :
    (applyEdit page e).DistinctNames := by
  unfold Page.DistinctNames at hn ⊢
  rw [names_of_ids _ _ (applyEdit_names page e)]
  exact hn

theorem nameAt_of_names (l1 l2 : List Input)
    (h : l1.map (fun inp => inp.name) = l2.map (fun inp => inp.name)) (j : Nat) (g : Input)
    (hg : l1[j]? = some g) : ∃ g1, l2[j]? = some g1 ∧ g1.name = g.name := by
  have := congrArg (fun l => l[j]?) h
  simp only [List.getElem?_map, hg, Option.map_some'] at this
  cases hg1 : l2[j]? with
  | none => simp [hg1] at this
  | some g1 =>
    simp only [hg1, Option.map_some', Option.some.injEq] at this
    exact ⟨g1, rfl, this.symm⟩

/-- One event on a complete page with distinct names: the listener returns, the target
shows what its validator yields, and every other field that is not `confirmPassword`
stays consistent if it was. -/
theorem handleEvent_spec (page : Page) (hc : page.Complete) (hn : page.DistinctNames)
    (e : FieldEvent) (ht : e.target < page.inputs.length) :
    ∃ page1, handleEvent page e = some page1 ∧ page1.Complete ∧ page1.DistinctNames ∧
      page1.inputs.map (fun inp => inp.name) = page.inputs.map (fun inp => inp.name) ∧
      display page1 e.target = freshDisplay page1 e.target ∧
      (∀ j g, j ≠ e.target → page.inputs[j]? = some g → g.name ≠ "confirmPassword" →
        display page j = freshDisplay page j → display page1 j = freshDisplay page1 j) := by
  have hce := applyEdit_complete page e hc
  have hne := applyEdit_distinct page e hn
  have hlen : (applyEdit page e).inputs.length = page.inputs.length := by
    simp [applyEdit]
  obtain ⟨f, hf⟩ : ∃ f, (applyEdit page e).inputs[e.target]? = some f :=
    ⟨_, List.getElem?_eq_getElem (by rw [hlen]; exact ht)⟩
  obtain ⟨v, msg, hv, ho, hstep⟩ := validateField_step _ hce e.target f hf
  have hd := afterField_data _ e.target f v msg hf
  have hc1 := afterField_complete _ e.target f v msg hf hce
  have hn1 := afterField_distinct _ e.target f v msg hf hne
  have hf1 : (afterField (applyEdit page e) e.target f v msg).inputs[e.target]? =
      some (marked f v) := by
    simp only [afterField]
    rw [List.getElem?_set_self (by rw [hlen]; exact ht)]
  refine ⟨afterField (applyEdit page e) e.target f v msg, ?_, hc1, hn1, ?_, ?_, ?_⟩
  · simp [handleEvent, hstep]
  · rw [names_of_data _ _ hd, names_of_ids _ _ (applyEdit_names page e)]
  · rw [freshDisplay_eq _ hc1 e.target _ hf1, outcome_congr _ _ hd, ho,
      display_afterField_self _ _ _ _ _ hf]
    rfl
  · intro j g hj hg hcp hok
    have hge : (applyEdit page e).inputs[j]? = some g := by
      simp only [applyEdit]
      rw [List.getElem?_modify_ne _ _ (Ne.symm hj), hg]
    have hg1 : (afterField (applyEdit page e) e.target f v msg).inputs[j]? = some g := by
      simp only [afterField]
      rw [List.getElem?_set_ne (Ne.symm hj), hge]
    have hout : outcome (applyEdit page e) j = outcome page j := by
      simp only [outcome, hge, hg, Option.some_bind]
      rw [fieldVerdict_congr_own (applyEdit page e) page g g hcp rfl]
    rw [display_afterField_other _ hne e.target j f g v msg (Ne.symm hj) hf hge,
      freshDisplay_eq _ hc1 j g hg1, outcome_congr _ _ hd, hout,
      ← freshDisplay_eq page hc j g hg, ← hok]
    simp only [display, hge, hg]
    rfl

/-- Any sequence of events with valid targets. -/
theorem handleEvents_spec (es : List FieldEvent) :
    ∀ (page : Page), page.Complete → page.DistinctNames →
      (∀ e ∈ es, e.target < page.inputs.length) →
      ∃ page1, handleEvents page es = some page1 ∧
        page1.inputs.map (fun inp => inp.name) = page.inputs.map (fun inp => inp.name) ∧
        (∀ i f, page.inputs[i]? = some f → f.name ≠ "confirmPassword" →
          (display page i = freshDisplay page i ∨ ∃ e ∈ es, e.target = i) →
          display page1 i = freshDisplay page1 i) ∧
        (∀ e, es.getLast? = some e → display page1 e.target = freshDisplay page1 e.target) := by
  induction es with
  | nil =>
    intro page _ _ _
    refine ⟨page, rfl, rfl, ?_, by simp⟩
    intro i f _ _ h
    rcases h with h | ⟨e, he, _⟩
    · exact h
    · cases he
  | cons e es ih =>
    intro page hc hn ht
    obtain ⟨page1, hrun, hc1, hn1, hnames, hself, hother⟩ :=
      handleEvent_spec page hc hn e (ht e (List.mem_cons_self _ _))
    have hlen : page1.inputs.length = page.inputs.length := by
      have := congrArg List.length hnames
      simpa using this
    obtain ⟨page2, hrun2, hnames2, hinv, hlast⟩ := ih page1 hc1 hn1
      (fun e1 he1 => by rw [hlen]; exact ht e1 (List.mem_cons_of_mem _ he1))
    refine ⟨page2, by simp [handleEvents, hrun, hrun2], hnames2.trans hnames, ?_, ?_⟩
    · intro i f hf hcp h
      obtain ⟨f1, hf1, hname1⟩ := nameAt_of_names _ _ hnames.symm i f hf
      apply hinv i f1 hf1 (by rw [hname1]; exact hcp)
      by_cases hi : i = e.target
      · left
        rw [hi]
        exact hself
      · rcases h with h | ⟨e1, he1, het⟩
        · left
          exact hother i f hi hf hcp h
        · rcases List.mem_cons.mp he1 with h1 | h1
          · exact absurd (h1 ▸ het.symm) hi
          · right
            exact ⟨e1, h1, het⟩
    · intro e1 he1
      cases es with
      | nil =>
        simp only [List.getLast?_singleton, Option.some.injEq] at he1
        subst he1
        simp only [handleEvents, Option.some.injEq] at hrun2
        subst hrun2
        exact hself
      | cons e2 es2 =>
        apply hlast
        rw [List.getLast?_cons_cons] at he1
        exact he1

/-- C10, as stated, fails: on the sign-up form the user types `Abc12345` into the
password field, the same into the confirmation field, and then changes the password to
`Xyz12345`. The confirmation field is still marked valid, with no error text, while
`validateField` on the current values yields the `invalid` mark and the text
`Passwords do not match`. -/
theorem realtime_confirmPassword_stale :
    (handleEvents (signupPage [] [] [] [] [] [] false)
        [⟨2, js "Abc12345", false⟩, ⟨3, js "Abc12345", false⟩, ⟨2, js "Xyz12345", false⟩]).map
      (fun p => p.inputs.map (fun inp => inp.value)) =
        some [[], [], js "Xyz12345", js "Abc12345", [], [], js "on"] ∧
    (handleEvents (signupPage [] [] [] [] [] [] false)
        [⟨2, js "Abc12345", false⟩, ⟨3, js "Abc12345", false⟩, ⟨2, js "Xyz12345", false⟩]).bind
      (fun p => display p 3) = some (true, false, some "") ∧
    (handleEvents (signupPage [] [] [] [] [] [] false)
        [⟨2, js "Abc12345", false⟩, ⟨3, js "Abc12345", false⟩, ⟨2, js "Xyz12345", false⟩]).bind
      (fun p => freshDisplay p 3) = some (false, true, some "Passwords do not match") := by
  decide

theorem handleEvents_append (es1 es2 : List FieldEvent) :
    ∀ page : Page, handleEvents page (es1 ++ es2) =
      (handleEvents page es1).bind (fun p => handleEvents p es2) := by
  induction es1 with
  | nil => intro page; rfl
  | cons e es ih =>
    intro page
    simp only [List.cons_append, handleEvents]
    cases handleEvent page e with
    | none => rfl
    | some p => exact ih p

/-- An event leaves every other input, and what the page shows for it, as it was. -/
theorem handleEvent_frame (page : Page) (hc : page.Complete) (hn : page.DistinctNames)
    (e : FieldEvent) (ht : e.target < page.inputs.length) (page1 : Page)
    (hrun : handleEvent page e = some page1) (j : Nat) (hj : j ≠ e.target) :
    page1.inputs[j]? = page.inputs[j]? ∧ display page1 j = display page j := by
  have hce := applyEdit_complete page e hc
  have hne := applyEdit_distinct page e hn
  have hlen : (applyEdit page e).inputs.length = page.inputs.length := by
    simp [applyEdit]
  obtain ⟨f, hf⟩ : ∃ f, (applyEdit page e).inputs[e.target]? = some f :=
    ⟨_, List.getElem?_eq_getElem (by rw [hlen]; exact ht)⟩
  obtain ⟨v, msg, _, _, hstep⟩ := validateField_step _ hce e.target f hf
  have hp : page1 = afterField (applyEdit page e) e.target f v msg := by
    simp only [handleEvent, hstep, Option.map_some', Option.some.injEq] at hrun
    exact hrun.symm
  subst hp
  have hge : (applyEdit page e).inputs[j]? = page.inputs[j]? := by
    simp only [applyEdit]
    rw [List.getElem?_modify_ne _ _ (Ne.symm hj)]
  have hin : (afterField (applyEdit page e) e.target f v msg).inputs[j]? = page.inputs[j]? := by
    simp only [afterField]
    rw [List.getElem?_set_ne (Ne.symm hj), hge]
  refine ⟨hin, ?_⟩
  cases hg : page.inputs[j]? with
  | none => simp [display, hin, hg]
  | some g =>
    rw [display_afterField_other _ hne e.target j f g v msg (Ne.symm hj) hf (hge.trans hg)]
    simp only [display, hge, hg]
    rfl

/-- A sequence of events keeps the page complete and its names distinct, and leaves the
inputs that are not targeted, and what the page shows for them, as they were. -/
theorem handleEvents_frame (es : List FieldEvent) :
    ∀ (page : Page), page.Complete → page.DistinctNames →
      (∀ e ∈ es, e.target < page.inputs.length) →
      ∀ page1, handleEvents page es = some page1 →
        page1.Complete ∧ page1.DistinctNames ∧
        page1.inputs.length = page.inputs.length ∧
        ∀ j, (∀ e ∈ es, e.target ≠ j) →
          page1.inputs[j]? = page.inputs[j]? ∧ display page1 j = display page j := by
  induction es with
  | nil =>
    intro page hc hn _ page1 hrun
    simp only [handleEvents, Option.some.injEq] at hrun
    subst hrun
    exact ⟨hc, hn, rfl, fun _ _ => ⟨rfl, rfl⟩⟩
  | cons e es ih =>
    intro page hc hn ht page1 hrun
    have hte := ht e (List.mem_cons_self _ _)
    obtain ⟨p, hp, hcp, hnp, hnames, _, _⟩ := handleEvent_spec page hc hn e hte
    have hlen : p.inputs.length = page.inputs.length := by
      have := congrArg List.length hnames
      simpa using this
    simp only [handleEvents, hp] at hrun
    obtain ⟨hc1, hn1, hl1, hfr⟩ := ih p hcp hnp
      (fun e1 he1 => by rw [hlen]; exact ht e1 (List.mem_cons_of_mem _ he1)) page1 hrun
    refine ⟨hc1, hn1, hl1.trans hlen, ?_⟩
    intro j hj
    have hje : j ≠ e.target := fun h => hj e (List.mem_cons_self _ _) h.symm
    obtain ⟨h1, h2⟩ := handleEvent_frame page hc hn e hte p hp j hje
    obtain ⟨h3, h4⟩ := hfr j (fun e1 he1 => hj e1 (List.mem_cons_of_mem _ he1))
    exact ⟨h3.trans h1, h4.trans h2⟩

/-- A field that showed what its validator yields keeps doing so over events that do not
target it, provided, for `confirmPassword`, that the password value is again what it
was. -/
theorem consistent_of_untouched (pageMid page1 : Page) (hcm : pageMid.Complete)
    (hc1 : page1.Complete) (i : Nat) (f : Input) (hf : pageMid.inputs[i]? = some f)
    (hin : page1.inputs[i]? = pageMid.inputs[i]?) (hd : display page1 i = display pageMid i)
    (hok : display pageMid i = freshDisplay pageMid i)
    (hpw : f.name = "confirmPassword" → passwordValue pageMid = passwordValue page1) :
    display page1 i = freshDisplay page1 i := by
  have hf1 : page1.inputs[i]? = some f := hin.trans hf
  have hout : outcome page1 i = outcome pageMid i := by
    simp only [outcome, hf1, hf, Option.some_bind]
    by_cases hcp : f.name = "confirmPassword"
    · rw [fieldVerdict_congr page1 pageMid f f (hpw hcp).symm rfl]
    · rw [fieldVerdict_congr_own page1 pageMid f f hcp rfl]
  rw [hd, hok, freshDisplay_eq _ hcm i f hf, freshDisplay_eq _ hc1 i f hf1, hout]

theorem fieldVerdict_confirm (page : Page) (f : Input) (P : JSString)
    (hname : f.name = "confirmPassword") (hP : passwordValue page = some P) :
    fieldVerdict page f =
      some (validateConfirmPassword f.value P,
        if validateConfirmPassword f.value P then "" else "Passwords do not match") := by
  unfold fieldVerdict
  rw [hname, hP]
  rfl

/-- What the page shows for a confirmation field after `validateField`, against the
password values `P1` and `P2`, agrees exactly when the field is blank or the two
verdicts agree. -/
theorem confirm_display_eq_iff (f : Input) (hname : f.name = "confirmPassword")
    (v1 v2 : Bool) :
    (some ((marked f v1).hasValid, (marked f v1).hasInvalid,
        some (shownText f (if v1 then "" else "Passwords do not match"))) =
      some ((marked f v2).hasValid, (marked f v2).hasInvalid,
        some (shownText f (if v2 then "" else "Passwords do not match")))) ↔
      (trim f.value = [] ∨ v1 = v2) := by
  have hterms : f.name ≠ "terms" := by
    rw [hname]
    decide
  unfold marked shownText Input.blank
  by_cases hb : trim f.value = []
  · simp [hb, hterms]
  · cases v1 <;> cases v2 <;> simp [hb]

/-- C10, amended: after any sequence of input/blur events on a form that has the
looked-up elements and pairwise different field names,
(1) every field other than `confirmPassword` that showed what its validator yields
before the events, or was the target of at least one of them, shows what `validateField`
yields on the current raw values;
(2) so does the target of the last event, whatever its name;
(3) the `confirmPassword` field, from the page `pageMid` just after its last own event
(or from the start, if it has no event and was consistent then), shows what
`validateField` yields on the current raw values exactly when its trimmed value is empty
or `validateConfirmPassword` answers the same against the current password value as
against the password value of `pageMid`. -/
theorem realtime_display_consistent (page : Page) (hc : page.Complete)
    (hn : page.DistinctNames) (es : List FieldEvent)
    (ht : ∀ e ∈ es, e.target < page.inputs.length) :
    ∃ page1, handleEvents page es = some page1 ∧
      (∀ i f, page.inputs[i]? = some f → f.name ≠ "confirmPassword" →
        (display page i = freshDisplay page i ∨ ∃ e ∈ es, e.target = i) →
        display page1 i = freshDisplay page1 i) ∧
      (∀ e, es.getLast? = some e → display page1 e.target = freshDisplay page1 e.target) ∧
      (∀ i f es1 es2 pageMid Pthen Pnow f1, page.inputs[i]? = some f →
        f.name = "confirmPassword" → es = es1 ++ es2 →
        handleEvents page es1 = some pageMid → (∀ e ∈ es2, e.target ≠ i) →
        ((es1 = [] ∧ display page i = freshDisplay page i) ∨
          ∃ e, es1.getLast? = some e ∧ e.target = i) →
        passwordValue pageMid = some Pthen → passwordValue page1 = some Pnow →
        page1.inputs[i]? = some f1 →
        (display page1 i = freshDisplay page1 i ↔
          (trim f1.value = [] ∨
            validateConfirmPassword f1.value Pthen =
              validateConfirmPassword f1.value Pnow))) := by
  obtain ⟨page1, hrun, _, hinv, hlast⟩ := handleEvents_spec es page hc hn ht
  refine ⟨page1, hrun, hinv, hlast, ?_⟩
  intro i f es1 es2 pageMid Pthen Pnow f1 hf hname hes hmid hes2 hstart hPthen hPnow hf1
  subst hes
  have ht1 : ∀ e ∈ es1, e.target < page.inputs.length :=
    fun e he => ht e (List.mem_append_left _ he)
  obtain ⟨hcm, hnm, hlm, _⟩ := handleEvents_frame es1 page hc hn ht1 pageMid hmid
  have hrun2 : handleEvents pageMid es2 = some page1 := by
    rw [handleEvents_append, hmid] at hrun
    exact hrun
  have ht2 : ∀ e ∈ es2, e.target < pageMid.inputs.length :=
    fun e he => by rw [hlm]; exact ht e (List.mem_append_right _ he)
  obtain ⟨hc1, _, _, hfr⟩ := handleEvents_frame es2 pageMid hcm hnm ht2 page1 hrun2
  obtain ⟨hin, hd⟩ := hfr i hes2
  have hfm : pageMid.inputs[i]? = some f1 := hin.symm.trans hf1
  obtain ⟨pm, hpm, hnames, _, hlastm⟩ := handleEvents_spec es1 page hc hn ht1
  rw [hmid] at hpm
  cases hpm
  have hname1 : f1.name = "confirmPassword" := by
    obtain ⟨g, hg, hgn⟩ := nameAt_of_names _ _ hnames i f1 hfm
    rw [hf] at hg
    cases hg
    rw [← hgn, hname]
  have hokm : display pageMid i = freshDisplay pageMid i := by
    rcases hstart with ⟨hnil, hok⟩ | ⟨e, he, hei⟩
    · subst hnil
      simp only [handleEvents, Option.some.injEq] at hmid
      subst hmid
      exact hok
    · rw [← hei]
      exact hlastm e he
  rw [hd, hokm, freshDisplay_eq _ hcm i f1 hfm, freshDisplay_eq _ hc1 i f1 hf1]
  simp only [outcome, hfm, hf1, Option.some_bind,
    fieldVerdict_confirm pageMid f1 Pthen hname1 hPthen,
    fieldVerdict_confirm page1 f1 Pnow hname1 hPnow, Option.map_some']
  exact confirm_display_eq_iff f1 hname1 _ _

theorem realtime_display_consistent_witness :
    ∃ page1, handleEvents (signupPage [] [] [] [] [] [] false)
        [⟨2, js "Abc12345", false⟩, ⟨3, js "Abc12345", false⟩, ⟨0, js "Ann Lee", false⟩] =
          some page1 ∧
      (∀ i f, (signupPage [] [] [] [] [] [] false).inputs[i]? = some f →
        f.name ≠ "confirmPassword" →
        (display (signupPage [] [] [] [] [] [] false) i =
            freshDisplay (signupPage [] [] [] [] [] [] false) i ∨
          ∃ e ∈ [(⟨2, js "Abc12345", false⟩ : FieldEvent), ⟨3, js "Abc12345", false⟩,
            ⟨0, js "Ann Lee", false⟩], e.target = i) →
        display page1 i = freshDisplay page1 i) ∧
      (∀ e, [(⟨2, js "Abc12345", false⟩ : FieldEvent), ⟨3, js "Abc12345", false⟩,
          ⟨0, js "Ann Lee", false⟩].getLast? = some e →
        display page1 e.target = freshDisplay page1 e.target) ∧
      (∀ i f es1 es2 pageMid Pthen Pnow f1,
        (signupPage [] [] [] [] [] [] false).inputs[i]? = some f →
        f.name = "confirmPassword" →
        [(⟨2, js "Abc12345", false⟩ : FieldEvent), ⟨3, js "Abc12345", false⟩,
          ⟨0, js "Ann Lee", false⟩] = es1 ++ es2 →
        handleEvents (signupPage [] [] [] [] [] [] false) es1 = some pageMid →
        (∀ e ∈ es2, e.target ≠ i) →
        ((es1 = [] ∧ display (signupPage [] [] [] [] [] [] false) i =
            freshDisplay (signupPage [] [] [] [] [] [] false) i) ∨
          ∃ e, es1.getLast? = some e ∧ e.target = i) →
        passwordValue pageMid = some Pthen → passwordValue page1 = some Pnow →
        page1.inputs[i]? = some f1 →
        (display page1 i = freshDisplay page1 i ↔
          (trim f1.value = [] ∨
            validateConfirmPassword f1.value Pthen =
              validateConfirmPassword f1.value Pnow))) :=
  realtime_display_consistent (signupPage [] [] [] [] [] [] false) (by decide) (by decide)
    [⟨2, js "Abc12345", false⟩, ⟨3, js "Abc12345", false⟩, ⟨0, js "Ann Lee", false⟩]
    (by decide)

/-- The confirmation field stays consistent over an event on another field that leaves
the password as it was: after the password, the confirmation and then the name are
typed, the confirmation field shows what `validateField` yields. -/
theorem realtime_confirmPassword_fresh :
    (handleEvents (signupPage [] [] [] [] [] [] false)
        [⟨2, js "Abc12345", false⟩, ⟨3, js "Abc12345", false⟩, ⟨0, js "Ann Lee", false⟩]).bind
      (fun p => display p 3) = some (true, false, some "") ∧
    (handleEvents (signupPage [] [] [] [] [] [] false)
        [⟨2, js "Abc12345", false⟩, ⟨3, js "Abc12345", false⟩, ⟨0, js "Ann Lee", false⟩]).bind
      (fun p => freshDisplay p 3) = some (true, false, some "") := by
  decide

end FormValidation
